import Mathlib

/-!
Verification development for the SpellTower solver.

The Python sources (`process_dict.py`, `st-solve.py`) are embedded
shallowly: the fragment dictionary is a function `String → Option Tag`,
the game grid is a list of rows of optional squares, and the recursive
generator `identify_words` is a fuel-indexed recursive function (the
fuel bounds the recursion depth, which in the source is bounded by the
number of grid cells since every recursive call appends a fresh cell to
`current_locs`).  Image acquisition and OCR are outside the core: the
embedding of `populate_grid` receives the already-recognised
letter/behaviour matrix and only models the placement of squares with
their recorded locations, which is the part the claims are about.
-/

namespace SpellTower

/-- Tag stored in the fragment dictionary by `index_words`:
the string is only a fragment of a word, only an entire word,
or both at once.  These model the Python values `'f'`, `'w'`, `'b'`. -/
inductive Tag where
  | f
  | w
  | b
deriving DecidableEq

/-- First `n` characters of a string, Python slicing `word[:n]`. -/
def strTake (s : String) (n : Nat) : String := String.mk (s.data.take n)

/-- Character-wise lower-casing, Python `s.lower()` on the ASCII letters used here. -/
def strLower (s : String) : String := String.mk (s.data.map Char.toLower)

/-- Point update `d[k] = v` of the fragment dictionary. -/
def updateD (d : String → Option Tag) (k : String) (v : Tag) : String → Option Tag :=
  fun s => if s = k then some v else d s

/-- The whole-word step of `index_words`: if the word is already a key it
becomes Both (it was previously only seen as a fragment), otherwise Word. -/
def wordStep (d : String → Option Tag) (word : String) : String → Option Tag :=
  updateD d word (match d word with | some _ => Tag.b | none => Tag.w)

/-- The value written for a fragment key, given the current value:
`if s in d and d[s] != 'f': d[s] = 'b' else: d[s] = 'f'`. -/
def fragValue : Option Tag → Tag
  | some Tag.f => Tag.f
  | some Tag.w => Tag.b
  | some Tag.b => Tag.b
  | none => Tag.f

/-- One fragment update of `index_words`. -/
def fragStep (d : String → Option Tag) (s : String) : String → Option Tag :=
  updateD d s (fragValue (d s))

/-- Processing of a single word by `index_words`: the word itself,
then every slice `word[:i]` for `i in range(3, len(word))`. -/
def processWord (d : String → Option Tag) (word : String) : String → Option Tag :=
  (List.range' 3 (word.length - 3)).foldl (fun d i => fragStep d (strTake word i)) (wordStep d word)

/-- `index_words` from `process_dict.py`: builds the fragment dictionary
from the word list, processing the words in order. -/
def index_words (words : List String) : String → Option Tag :=
  words.foldl processWord (fun _ => none)

/-- Square behaviour, from `identify_square`. -/
inductive Behaviour where
  | white
  | blue
  | grey
deriving DecidableEq

/-- `GameSquare` from `st-solve.py`: the letter, the behaviour and the
recorded grid location of one tile. -/
structure GameSquare where
  letter : String
  behaviour : Behaviour
  loc : Nat × Nat
deriving DecidableEq

/-- `Word` from `st-solve.py`: an identified word with its path and its
bonus information; fields default as in the Python constructor. -/
structure Word where
  word : String
  locs : List (Nat × Nat)
  bonus_sqs : List GameSquare := []
  bonus_locs : List (Nat × Nat) := []
  score : Nat := 0
  bonus_letters : String := ""
deriving DecidableEq

/-- The game grid: rows of optional squares, `None` marking a removed cell. -/
abbrev Grid := List (List (Option GameSquare))

/-- `grid[y][x]`, used only after the source has bounds-checked `y` and `x`. -/
def getCell (g : Grid) (y x : Nat) : Option GameSquare := (g.getD y []).getD x none

/-- `len(grid)`. -/
def gridH (g : Grid) : Nat := g.length

/-- `len(grid[0])`. -/
def gridW (g : Grid) : Nat := (g.headD []).length

/-- The grid is rectangular: every row has the width of the first one. -/
def rectangular (g : Grid) : Prop := ∀ row ∈ g, row.length = gridW g

/-- Every present square records exactly the position it is stored at. -/
def locConsistent (g : Grid) : Prop :=
  ∀ y x sq, getCell g y x = some sq → sq.loc = (y, x)

/-- Every present square holds at most one character (after lower-casing);
this is how the OCR populates the board, one letter per tile. -/
def lettersShort (g : Grid) : Bool :=
  g.all (fun row => row.all (fun c => c.all (fun sq => Nat.ble (strLower sq.letter).length 1)))

/-- No tile on the word's path is blue (decidable form used by witnesses). -/
def noBlueOnPath (w : Word) (g : Grid) : Bool :=
  w.locs.all (fun loc =>
    (getCell g loc.1 loc.2).all (fun sq => !(sq.behaviour == Behaviour.blue)))

/-- `populate_grid` with the image-recognition collaborator abstracted
away: given the recognised (letter, behaviour) matrix, place a square at
every position with `loc = (y, x)`, exactly as the source constructs
`GameSquare(letter=letter, behaviour=behaviour, loc=(y,x))`. -/
def populate_grid (cells : List (List (String × Behaviour))) : Grid :=
  cells.mapIdx (fun y line =>
    line.mapIdx (fun x c => some { letter := c.1, behaviour := c.2, loc := (y, x) }))

/-- Scrabble-style letter sum over a string, upper-casing each character
before the lookup, as in `for c in word.word.upper(): score += score_dict[c]`. -/
def charSum (score_dict : Char → Nat) (s : String) : Nat :=
  (s.data.map (fun c => score_dict c.toUpper)).sum

/-- `calc_score` from `st-solve.py`:
`(score + bonus_score) * len(word.word)`. -/
def calc_score (word : Word) (score_dict : Char → Nat) : Nat :=
  (charSum score_dict word.word + charSum score_dict word.bonus_letters) * word.word.length

/-- Blue-square row additions of `identify_bonus`: every remaining square
of the row whose recorded location differs from the blue square's. -/
def blueRow (g : Grid) (y x : Nat) : List GameSquare :=
  (g.getD y []).filterMap (fun c =>
    match c with
    | none => none
    | some square => if square.loc ≠ (y, x) then some square else none)

/-- Blue-square above/below additions of `identify_bonus`. -/
def blueAboveBelow (g : Grid) (y x : Nat) (wlocs : List (Nat × Nat)) : List GameSquare :=
  ([(y : Int) - 1, (y : Int) + 1]).filterMap (fun i =>
    if i < 0 ∨ (gridH g : Int) ≤ i then none
    else
      match getCell g i.toNat x with
      | none => none
      | some sq => if (i.toNat, x) ∉ wlocs then some sq else none)

/-- Non-blue vertical additions of `identify_bonus` (words of length ≥ 5). -/
def whiteVert (g : Grid) (y x : Nat) (wlocs : List (Nat × Nat)) : List GameSquare :=
  ([(y : Int) - 1, (y : Int) + 1]).filterMap (fun i =>
    if i < 0 ∨ (gridH g : Int) ≤ i then none
    else if (i.toNat, x) ∈ wlocs then none
    else getCell g i.toNat x)

/-- Non-blue horizontal additions of `identify_bonus` (words of length ≥ 5). -/
def whiteHoriz (g : Grid) (y x : Nat) (wlocs : List (Nat × Nat)) : List GameSquare :=
  ([(x : Int) - 1, (x : Int) + 1]).filterMap (fun j =>
    if j < 0 ∨ (gridW g : Int) ≤ j then none
    else
      match getCell g y j.toNat with
      | none => none
      | some sq => if (y, j.toNat) ∉ wlocs then some sq else none)

/-- The `blocs` list accumulated by `identify_bonus`, in discovery order.
It depends only on the word's text (through its length), its path, and
the grid.  The source reads `game_grid[y][x]` for every path cell without
a `None` check; path cells of real words are always occupied, and an
unoccupied path cell contributes nothing here. -/
def bonusSquares (wordStr : String) (wlocs : List (Nat × Nat)) (g : Grid) : List GameSquare :=
  wlocs.flatMap (fun wloc =>
    match getCell g wloc.1 wloc.2 with
    | none => []
    | some wsquare =>
      if wsquare.behaviour = Behaviour.blue then
        blueRow g wloc.1 wloc.2 ++ blueAboveBelow g wloc.1 wloc.2 wlocs
      else if wordStr.length < 5 then []
      else whiteVert g wloc.1 wloc.2 wlocs ++ whiteHoriz g wloc.1 wloc.2 wlocs)

/-- `identify_bonus` from `st-solve.py`: recompute the bonus squares from
scratch and store them, their locations, and the joined bonus letters
(with the word's own letters appended when the joined string is nonempty). -/
def identify_bonus (word : Word) (game_grid : Grid) : Word :=
  let blocs := bonusSquares word.word word.locs game_grid
  let bletters := String.join (blocs.map (fun sq => sq.letter))
  { word with
    bonus_sqs := blocs
    bonus_locs := blocs.map (fun sq => sq.loc)
    bonus_letters := if bletters.length ≠ 0 then bletters ++ word.word else bletters }

/-- The post-processing applied to every word before it is yielded:
`word = identify_bonus(word, grid); word.score = calc_score(word, score_dict)`. -/
def rescore (w : Word) (grid : Grid) (score_dict : Char → Nat) : Word :=
  let w2 := identify_bonus w grid
  { w2 with score := calc_score w2 score_dict }

/-- `identify_words` from `st-solve.py`, as a fuel-indexed recursion.
Each level scans the up-to-9 cells around `start`, skips out-of-bounds,
already-used, removed and letterless cells, extends the word, and prunes,
yields, or recurses according to the fragment dictionary tag.  The fuel
only bounds the recursion depth; the source recursion is bounded by the
number of grid cells because each call adds a fresh in-bounds cell to
`current_locs`. -/
def identify_words (fuel : Nat) (grid : Grid) (start : Nat × Nat)
    (fragments_dict : String → Option Tag) (current_word : String)
    (current_locs : List (Nat × Nat)) (score_dict : Char → Nat) : List Word :=
  match fuel with
  | 0 => []
  | fuel + 1 =>
    ([(start.1 : Int) - 1, (start.1 : Int), (start.1 : Int) + 1]).flatMap (fun i =>
      if i < 0 ∨ (gridH grid : Int) ≤ i then []
      else
        ([(start.2 : Int) - 1, (start.2 : Int), (start.2 : Int) + 1]).flatMap (fun j =>
          if j < 0 ∨ (gridW grid : Int) ≤ j then []
          else
            if (i.toNat, j.toNat) ∈ current_locs then []
            else
              match getCell grid i.toNat j.toNat with
              | none => []
              | some sq =>
                if strLower sq.letter = "" then []
                else
                  match fragments_dict (current_word ++ strLower sq.letter) with
                  | none => []
                  | some Tag.w =>
                      [rescore { word := current_word ++ strLower sq.letter,
                                 locs := current_locs ++ [(i.toNat, j.toNat)] } grid score_dict]
                  | some Tag.b =>
                      (identify_words fuel grid (i.toNat, j.toNat) fragments_dict
                          (current_word ++ strLower sq.letter)
                          (current_locs ++ [(i.toNat, j.toNat)]) score_dict).map
                        (fun w => rescore w grid score_dict) ++
                      [rescore { word := current_word ++ strLower sq.letter,
                                 locs := current_locs ++ [(i.toNat, j.toNat)] } grid score_dict]
                  | some Tag.f =>
                      (identify_words fuel grid (i.toNat, j.toNat) fragments_dict
                          (current_word ++ strLower sq.letter)
                          (current_locs ++ [(i.toNat, j.toNat)]) score_dict).map
                        (fun w => rescore w grid score_dict)))

/-- `grid[y][x] = v`; out-of-range writes are unreachable in the source
(`List.set` is the identity there). -/
def setCell (g : Grid) (y x : Nat) (v : Option GameSquare) : Grid :=
  g.set y ((g.getD y []).set x v)

/-- The removal loops of `remove_word`: set every listed cell to `None`. -/
def eraseCells (locs : List (Nat × Nat)) (g : Grid) : Grid :=
  locs.foldl (fun g loc => setCell g loc.1 loc.2 none) g

/-- One inner pass `for y in range(1, len(grid))` of the compaction of
column `x`, carried out on the extracted column.  `prev` is the current
value at row `y - 1`; when the cell at `y` is `None` and `prev` holds a
square, they are swapped and the moved square's recorded location is set
to `(y, x)`, exactly as `grid[y][x].loc = (y, x)` in the source.  The
boolean records whether any swap was performed (`repeat`). -/
def compactPassAux (x : Nat) : Nat → Option GameSquare → List (Option GameSquare) →
    List (Option GameSquare) × Bool
  | _, prev, [] => ([prev], false)
  | y, prev, cur :: rest =>
    match cur, prev with
    | none, some t =>
        let r := compactPassAux x (y + 1) (some { t with loc := (y, x) }) rest
        (none :: r.1, true)
    | _, _ =>
        let r := compactPassAux x (y + 1) cur rest
        (prev :: r.1, r.2)

/-- One full pass of the compaction of column `x`. -/
def compactPass (x : Nat) : List (Option GameSquare) → List (Option GameSquare) × Bool
  | [] => ([], false)
  | c :: cs => compactPassAux x 1 c cs

/-- Termination measure for the `while repeat` loop: the sum of the row
indices of the `None` cells of the column.  Every swap moves one `None`
up one row, so a pass that swaps strictly decreases this sum. -/
def noneWeight : Nat → List (Option GameSquare) → Nat
  | _, [] => 0
  | i, c :: cs => (match c with | none => i | some _ => 0) + noneWeight (i + 1) cs

/-- The `while repeat` loop of `remove_word`, fuel-indexed: repeat the
pass while it performed a swap. -/
def compactColLoop (x : Nat) : Nat → List (Option GameSquare) → List (Option GameSquare)
  | 0, col => col
  | fuel + 1, col =>
    let r := compactPass x col
    if r.2 then compactColLoop x fuel r.1 else r.1

/-- Full compaction of one column: `noneWeight` strictly decreases at
every repeated pass, so this fuel always reaches the no-swap fixpoint. -/
def compactColumn (x : Nat) (col : List (Option GameSquare)) : List (Option GameSquare) :=
  compactColLoop x (noneWeight 0 col + 1) col

/-- Column `x` of the grid, read with the same `grid[y][x]` indexing. -/
def getCol (x : Nat) (g : Grid) : List (Option GameSquare) := g.map (fun row => row.getD x none)

/-- Write column `x` back into the grid. -/
def setCol (x : Nat) (col : List (Option GameSquare)) (g : Grid) : Grid :=
  List.zipWith (fun row c => row.set x c) g col

/-- The compaction phase of `remove_word`: `for x in range(len(grid[0]))`,
compact column `x` in place. -/
def compactGrid (g : Grid) : Grid :=
  (List.range (gridW g)).foldl (fun g x => setCol x (compactColumn x (getCol x g)) g) g

/-- The two removal loops of `remove_word`: the word's path cells, then
its bonus cells, are set to `None`. -/
def removedPhase (word : Word) (grid : Grid) : Grid :=
  eraseCells word.bonus_locs (eraseCells word.locs grid)

/-- `remove_word` from `st-solve.py`: removal of the path and bonus
cells followed by the per-column gravity compaction. -/
def remove_word (word : Word) (grid : Grid) : Grid :=
  compactGrid (removedPhase word grid)

/-- Python's `words.sort(key=lambda x: x.score, reverse=True)`: a stable
descending sort by score (stable sorts with the same key agree, so the
library merge sort reproduces the source's sort exactly). -/
def sortDesc (ws : List Word) : List Word :=
  ws.mergeSort (fun a b => Nat.ble b.score a.score)

/-- One round's candidate collection in `main`: every occupied cell in
row-major order starts a search with its own (lower-cased) letter. -/
def collectWords (g : Grid) (d : String → Option Tag) (sd : Char → Nat) : List Word :=
  (List.range (gridH g)).flatMap (fun y =>
    (List.range (gridW g)).flatMap (fun x =>
      match getCell g y x with
      | none => []
      | some sq => identify_words (gridH g * gridW g + 1) g (y, x) d (strLower sq.letter) [(y, x)] sd))

/-- Number of occupied cells, counted column by column. -/
def occupiedCount (g : Grid) : Nat :=
  ∑ x ∈ Finset.range (gridW g), ((getCol x g).countP Option.isSome)

/-- The greedy loop of `main`, fuel-indexed: collect and sort the round's
candidates; if none remain, stop; otherwise commit the top candidate
(accumulate its score, append its word, remove and compact) and repeat. -/
def solveLoop (d : String → Option Tag) (sd : Char → Nat) :
    Nat → Grid → Nat → List String → Nat × List String
  | 0, _, score, used => (score, used)
  | fuel + 1, g, score, used =>
    match sortDesc (collectWords g d sd) with
    | [] => (score, used)
    | top :: _ => solveLoop d sd fuel (remove_word top g) (score + top.score) (used ++ [top.word])

/-- The whole greedy solve: every committed word vacates at least one
cell, so `occupiedCount g + 1` rounds always reach the empty round. -/
def solve (g : Grid) (d : String → Option Tag) (sd : Char → Nat) : Nat × List String :=
  solveLoop d sd (occupiedCount g + 1) g 0 []

/-- The letter/behaviour content of a column, in order, ignoring holes. -/
def colView (col : List (Option GameSquare)) : List (String × Behaviour) :=
  col.filterMap (fun c => c.map (fun sq => (sq.letter, sq.behaviour)))

/-- The column's holes all sit above its occupied cells. -/
def nonesFirst : List (Option GameSquare) → Bool
  | [] => true
  | none :: rest => nonesFirst rest
  | some _ :: rest => rest.all Option.isSome

/-- Position consistency of a column whose first entry sits at row `b`. -/
def colConsistent (x b : Nat) (col : List (Option GameSquare)) : Prop :=
  ∀ n sq, col.getD n none = some sq → sq.loc = (b + n, x)

instance (g : Grid) : Decidable (rectangular g) :=
  inferInstanceAs (Decidable (∀ row ∈ g, row.length = gridW g))

/-- `s` is a strict fragment key contributed by some word of the list:
it is the slice `w[:i]` of some listed word for an `i` in `range(3, len(w))`. -/
def isFragKey (words : List String) (s : String) : Prop :=
  3 ≤ s.length ∧ ∃ w ∈ words, s.length < w.length ∧ strTake w s.length = s

instance (words : List String) (s : String) : Decidable (isFragKey words s) :=
  inferInstanceAs (Decidable (_ ∧ ∃ w ∈ words, _ ∧ _))

/-! ### Concrete fixtures used by witnesses and counterexamples -/

/-- A dictionary holding only the word `abe`, 2-letter keys absent. -/
def dictAbeOnly : String → Option Tag :=
  fun s => if s = "abe" then some Tag.w else none

/-- A dictionary holding `abe` as a word and its 3-letter search path
entry `ab` as a fragment, so the search can actually walk to `abe`. -/
def dictAbeFrag : String → Option Tag :=
  fun s => if s = "abe" then some Tag.w else if s = "ab" then some Tag.f else none

/-- The spec's 3×3 all-white fixture board `A B C / D E F / G H I`. -/
def gridABC9 : Grid := populate_grid
  [[("A", Behaviour.white), ("B", Behaviour.white), ("C", Behaviour.white)],
   [("D", Behaviour.white), ("E", Behaviour.white), ("F", Behaviour.white)],
   [("G", Behaviour.white), ("H", Behaviour.white), ("I", Behaviour.white)]]

/-- A 1×3 all-white board spelling `a b e`. -/
def gridABE : Grid :=
  populate_grid [[("a", Behaviour.white), ("b", Behaviour.white), ("e", Behaviour.white)]]

/-- A 1×3 board whose first two tiles (the word path) are blue. -/
def gridBlue2 : Grid :=
  populate_grid [[("a", Behaviour.blue), ("b", Behaviour.blue), ("c", Behaviour.white)]]

/-- The word `ab` along the first two tiles of a 1×3 board. -/
def wordAB2 : Word := { word := "ab", locs := [(0, 0), (0, 1)] }

/-- A 3×1 board: white `a`, blue `b`, and a bottom tile whose letter the
OCR left empty. -/
def gridBlueEmpty : Grid :=
  populate_grid [[("a", Behaviour.white)], [("b", Behaviour.blue)], [("", Behaviour.white)]]

/-- The vertical word `ab` on `gridBlueEmpty`. -/
def wordAB3 : Word := { word := "ab", locs := [(0, 0), (1, 0)] }

/-- A 2×5 all-white board. -/
def gridWhite25 : Grid := populate_grid
  [[("a", Behaviour.white), ("b", Behaviour.white), ("c", Behaviour.white),
    ("d", Behaviour.white), ("e", Behaviour.white)],
   [("f", Behaviour.white), ("g", Behaviour.white), ("h", Behaviour.white),
    ("i", Behaviour.white), ("j", Behaviour.white)]]

/-- The 5-letter word `abcde` along the top row of `gridWhite25`. -/
def wordABCDE : Word :=
  { word := "abcde", locs := [(0, 0), (0, 1), (0, 2), (0, 3), (0, 4)] }

/-- A 4×1 column spelling `a b c d` top to bottom. -/
def gridCol4 : Grid := populate_grid
  [[("a", Behaviour.white)], [("b", Behaviour.white)], [("c", Behaviour.white)],
   [("d", Behaviour.white)]]

/-- The one-letter word removing the third tile of `gridCol4`. -/
def wordC1of4 : Word := { word := "c", locs := [(2, 0)] }

/-- The fully processed candidate the search yields for `abe` on `gridABE`. -/
def wordABEFound : Word :=
  { word := "abe", locs := [(0, 0), (0, 1), (0, 2)], score := 9 }

/-! ### String helpers -/

theorem strTake_length (s : String) (n : Nat) : (strTake s n).length = min n s.length := by
  show (s.data.take n).length = min n s.data.length
  exact List.length_take n s.data

theorem strTake_append_left (s t : String) : strTake (s ++ t) s.length = s := by
  unfold strTake
  rw [String.data_append]
  show String.mk ((s.data ++ t.data).take s.data.length) = s
  rw [List.take_left]

theorem strTake_strTake (s : String) (n m : Nat) :
    strTake (strTake s n) m = strTake s (min m n) := by
  unfold strTake
  show String.mk ((s.data.take n).take m) = String.mk (s.data.take (min m n))
  rw [List.take_take]

theorem string_length_eq_zero {s : String} : s.length = 0 ↔ s = "" := by
  constructor
  · intro h
    cases s with
    | mk data =>
      have h' : data.length = 0 := h
      have : data = [] := List.eq_nil_of_length_eq_zero h'
      subst this
      rfl
  · intro h
    subst h
    rfl

theorem charSum_append (sd : Char → Nat) (s t : String) :
    charSum sd (s ++ t) = charSum sd s + charSum sd t := by
  simp [charSum, String.data_append]

theorem charSum_empty (sd : Char → Nat) : charSum sd "" = 0 := rfl

/-! ### The fragment dictionary: `index_words` -/

theorem updateD_lookup (d : String → Option Tag) (k : String) (v : Tag) (s : String) :
    updateD d k v s = if s = k then some v else d s := rfl

theorem fragValue_mem_wb (o : Option Tag) (h : o = some Tag.w ∨ o = some Tag.b) :
    fragValue o = Tag.b := by
  rcases h with h | h <;> simp [h, fragValue]

/-- Lookup after the inner fragment loop of one word: the keys touched by
distinct indices are distinct (they have distinct lengths), so a key's
final value is determined by its value before the loop. -/
theorem fragFold_lookup (w : String) :
    ∀ (is : List Nat) (d : String → Option Tag) (s : String), is.Nodup →
      (∀ i ∈ is, i < w.length) →
      (is.foldl (fun d i => fragStep d (strTake w i)) d) s =
        if ∃ i ∈ is, s = strTake w i then some (fragValue (d s)) else d s := by
  intro is
  induction is with
  | nil => intro d s _ _; simp
  | cons i is ih =>
    intro d s hnd hlt
    have hnd' : is.Nodup := hnd.of_cons
    have hmem : i ∉ is := by
      have := List.nodup_cons.mp hnd
      exact this.1
    have hlt' : ∀ j ∈ is, j < w.length := fun j hj => hlt j (List.mem_cons_of_mem _ hj)
    have hiw : i < w.length := hlt i (List.mem_cons_self _ _)
    rw [List.foldl_cons, ih (fragStep d (strTake w i)) s hnd' hlt']
    by_cases hs : s = strTake w i
    · have hnotis : ¬ ∃ j ∈ is, s = strTake w j := by
        rintro ⟨j, hj, hsj⟩
        have hjw : j < w.length := hlt' j hj
        have : i = j := by
          have h1 : (strTake w i).length = i := by
            rw [strTake_length]; omega
          have h2 : (strTake w j).length = j := by
            rw [strTake_length]; omega
          rw [← hs] at h1
          rw [← hsj] at h2
          omega
        exact hmem (this ▸ hj)
      rw [if_neg hnotis]
      have : fragStep d (strTake w i) s = some (fragValue (d s)) := by
        simp [fragStep, updateD, hs]
      rw [this]
      have hex : ∃ j ∈ i :: is, s = strTake w j := ⟨i, List.mem_cons_self _ _, hs⟩
      rw [if_pos hex]
    · have hd1 : fragStep d (strTake w i) s = d s := by
        simp [fragStep, updateD, hs]
      rw [hd1]
      by_cases hex : ∃ j ∈ is, s = strTake w j
      · rw [if_pos hex]
        have : ∃ j ∈ i :: is, s = strTake w j := by
          obtain ⟨j, hj, hsj⟩ := hex
          exact ⟨j, List.mem_cons_of_mem _ hj, hsj⟩
        rw [if_pos this]
      · rw [if_neg hex]
        have : ¬ ∃ j ∈ i :: is, s = strTake w j := by
          rintro ⟨j, hj, hsj⟩
          rcases List.mem_cons.mp hj with rfl | hj
          · exact hs hsj
          · exact hex ⟨j, hj, hsj⟩
        rw [if_neg this]

theorem wordStep_lookup (d : String → Option Tag) (w s : String) :
    wordStep d w s =
      if s = w then some (match d w with | some _ => Tag.b | none => Tag.w) else d s := rfl

/-- The step-level fragment condition coincides with `isFragKey` for one word. -/
theorem fragBy_iff (w s : String) :
    (∃ i, 3 ≤ i ∧ i < w.length ∧ s = strTake w i) ↔
      (3 ≤ s.length ∧ s.length < w.length ∧ strTake w s.length = s) := by
  constructor
  · rintro ⟨i, h3, hl, rfl⟩
    have hlen : (strTake w i).length = i := by rw [strTake_length]; omega
    rw [hlen]
    exact ⟨h3, hl, rfl⟩
  · rintro ⟨h3, hl, ht⟩
    exact ⟨s.length, h3, hl, ht.symm⟩

/-- Lookup after processing one word. -/
theorem processWord_lookup (d : String → Option Tag) (w s : String) :
    processWord d w s =
      if 3 ≤ s.length ∧ s.length < w.length ∧ strTake w s.length = s then
        some (fragValue (wordStep d w s))
      else wordStep d w s := by
  unfold processWord
  rw [fragFold_lookup w _ _ _ (List.nodup_range' _ _) (by
    intro i hi
    have := List.mem_range'_1.mp hi
    omega)]
  have hiff : (∃ i ∈ List.range' 3 (w.length - 3), s = strTake w i) ↔
      (3 ≤ s.length ∧ s.length < w.length ∧ strTake w s.length = s) := by
    rw [← fragBy_iff]
    constructor
    · rintro ⟨i, hi, hs⟩
      have := List.mem_range'_1.mp hi
      exact ⟨i, by omega, by omega, hs⟩
    · rintro ⟨i, h3, hl, hs⟩
      exact ⟨i, List.mem_range'_1.mpr (by omega), hs⟩
  by_cases hex : 3 ≤ s.length ∧ s.length < w.length ∧ strTake w s.length = s
  · rw [if_pos (hiff.mpr hex), if_pos hex]
  · rw [if_neg (fun h => hex (hiff.mp h)), if_neg hex]

theorem index_words_nil (s : String) : index_words [] s = none := rfl

theorem index_words_concat (ws : List String) (w : String) :
    index_words (ws ++ [w]) = processWord (index_words ws) w := by
  simp [index_words, List.foldl_append]

/-- Extensional characterization of the fragment dictionary for a
duplicate-free word list: a listed word that is also some word's strict
fragment is Both, a listed word that is no fragment is Word, a pure
fragment is Fragment, and nothing else is a key. -/
theorem index_words_lookup :
    ∀ (words : List String), words.Nodup → ∀ s,
      index_words words s =
        if s ∈ words then (if isFragKey words s then some Tag.b else some Tag.w)
        else (if isFragKey words s then some Tag.f else none) := by
  intro words
  induction words using List.reverseRecOn with
  | nil => intro _ s; simp [index_words_nil, isFragKey]
  | append_singleton ws w ih =>
    intro hnd s
    have hndw : ws.Nodup := hnd.of_append_left
    have hwout : w ∉ ws := by
      rw [List.nodup_append] at hnd
      have := hnd.2.2
      simp [List.disjoint_singleton] at this
      exact this
    have hIH := ih hndw
    rw [index_words_concat, processWord_lookup]
    have hfragiff : isFragKey (ws ++ [w]) s ↔
        (isFragKey ws s ∨ (3 ≤ s.length ∧ s.length < w.length ∧ strTake w s.length = s)) := by
      unfold isFragKey
      constructor
      · rintro ⟨h3, w', hw', hl, ht⟩
        rcases List.mem_append.mp hw' with h | h
        · exact Or.inl ⟨h3, w', h, hl, ht⟩
        · simp at h
          subst h
          exact Or.inr ⟨h3, hl, ht⟩
      · rintro (⟨h3, w', hw', hl, ht⟩ | ⟨h3, hl, ht⟩)
        · exact ⟨h3, w', List.mem_append_left _ hw', hl, ht⟩
        · exact ⟨h3, w, List.mem_append_right _ (List.mem_singleton_self _), hl, ht⟩
    by_cases hsw : s = w
    · subst hsw
      have hnofrag : ¬ (3 ≤ s.length ∧ s.length < s.length ∧ strTake s s.length = s) := by
        omega
      rw [if_neg hnofrag, wordStep_lookup, if_pos rfl]
      rw [if_pos (show s ∈ ws ++ [s] by simp)]
      have hfrag2 : isFragKey (ws ++ [s]) s ↔ isFragKey ws s := by
        rw [hfragiff]
        constructor
        · rintro (h | ⟨_, hl, _⟩)
          · exact h
          · omega
        · exact Or.inl
      rw [hIH s, if_neg hwout]
      by_cases hf : isFragKey ws s
      · rw [if_pos hf, if_pos (hfrag2.mpr hf)]
      · rw [if_neg hf, if_neg (fun h => hf (hfrag2.mp h))]
    · have hws : wordStep (index_words ws) w s = index_words ws s := by
        rw [wordStep_lookup, if_neg hsw]
      have hmemiff : s ∈ ws ++ [w] ↔ s ∈ ws := by
        simp [hsw]
      by_cases hbw : 3 ≤ s.length ∧ s.length < w.length ∧ strTake w s.length = s
      · rw [if_pos hbw, hws]
        have hfragT : isFragKey (ws ++ [w]) s := hfragiff.mpr (Or.inr hbw)
        rw [hIH s]
        by_cases hm : s ∈ ws
        · rw [if_pos hm]
          rw [if_pos (hmemiff.mpr hm), if_pos hfragT]
          by_cases hf : isFragKey ws s
          · rw [if_pos hf]; rfl
          · rw [if_neg hf]; rfl
        · rw [if_neg hm]
          rw [if_neg (fun h => hm (hmemiff.mp h)), if_pos hfragT]
          by_cases hf : isFragKey ws s
          · rw [if_pos hf]; rfl
          · rw [if_neg hf]; rfl
      · rw [if_neg hbw, hws]
        have hfragiff2 : isFragKey (ws ++ [w]) s ↔ isFragKey ws s := by
          rw [hfragiff]
          constructor
          · rintro (h | h)
            · exact h
            · exact absurd h hbw
          · exact Or.inl
        rw [hIH s]
        by_cases hm : s ∈ ws
        · rw [if_pos hm, if_pos (hmemiff.mpr hm)]
          by_cases hf : isFragKey ws s
          · rw [if_pos hf, if_pos (hfragiff2.mpr hf)]
          · rw [if_neg hf, if_neg (fun h => hf (hfragiff2.mp h))]
        · rw [if_neg hm, if_neg (fun h => hm (hmemiff.mp h))]
          by_cases hf : isFragKey ws s
          · rw [if_pos hf, if_pos (hfragiff2.mpr hf)]
          · rw [if_neg hf, if_neg (fun h => hf (hfragiff2.mp h))]

/-- Every key of the dictionary is a listed word or a `w[:i]` slice with
`3 ≤ i < len(w)` of a listed word (no duplicate-freeness needed). -/
theorem index_words_support :
    ∀ (words : List String) (s : String), (index_words words s).isSome = true →
      s ∈ words ∨ ∃ w ∈ words, ∃ i, 3 ≤ i ∧ i < w.length ∧ s = strTake w i := by
  intro words
  induction words using List.reverseRecOn with
  | nil => intro s h; simp [index_words_nil] at h
  | append_singleton ws w ih =>
    intro s h
    rw [index_words_concat, processWord_lookup] at h
    by_cases hex : 3 ≤ s.length ∧ s.length < w.length ∧ strTake w s.length = s
    · right
      exact ⟨w, List.mem_append_right _ (List.mem_singleton_self _), (fragBy_iff w s).mpr hex⟩
    · rw [if_neg hex, wordStep_lookup] at h
      by_cases hsw : s = w
      · left
        rw [hsw]
        exact List.mem_append_right _ (List.mem_singleton_self _)
      · rw [if_neg hsw] at h
        rcases ih s h with hm | ⟨w', hw', hi⟩
        · exact Or.inl (List.mem_append_left _ hm)
        · exact Or.inr ⟨w', List.mem_append_left _ hw', hi⟩

theorem getD_mem {α : Type} {l : List α} {n : Nat} {d : α} (h : n < l.length) :
    l.getD n d ∈ l := by
  rw [List.getD_eq_getElem?_getD, List.getElem?_eq_getElem h]
  exact List.getElem_mem h

theorem getD_oob {α : Type} {l : List α} {n : Nat} (d : α) (h : l.length ≤ n) :
    l.getD n d = d := by
  rw [List.getD_eq_getElem?_getD, List.getElem?_eq_none h]
  rfl

/-- Every square read out of a `lettersShort` grid has a letter of at
most one character after lower-casing. -/
theorem lettersShort_getCell {g : Grid} (h : lettersShort g = true) {y x : Nat}
    {sq : GameSquare} (hc : getCell g y x = some sq) :
    (strLower sq.letter).length ≤ 1 := by
  unfold getCell at hc
  by_cases hy : y < g.length
  · by_cases hx : x < (g.getD y []).length
    · have hrow : g.getD y [] ∈ g := getD_mem hy
      have hcmem : (g.getD y []).getD x none ∈ g.getD y [] := getD_mem hx
      rw [hc] at hcmem
      have h1 := (List.all_eq_true.mp h) _ hrow
      have h2 := (List.all_eq_true.mp h1) _ hcmem
      have h3 : Nat.ble (strLower sq.letter).length 1 = true := h2
      exact Nat.le_of_ble_eq_true h3
    · rw [getD_oob none (by omega)] at hc
      exact absurd hc (by simp)
  · rw [getD_oob [] (by omega)] at hc
    simp at hc

/-- C1: a fragment dictionary with no key of length 2 — such as any
dictionary `index_words` builds from words of length ≥ 3 — prunes every
branch of the word search at the first extension of a one-letter start:
the 2-letter extension is absent from the dictionary, so no candidate is
ever produced, from any cell of any board with one-letter tiles.  The
spec's 3×3 `A B C / D E F / G H I` fixture instance is the witness. -/
theorem claim_C1_depth_two_pruning :
    (∀ (words : List String), (∀ w ∈ words, 3 ≤ w.length) →
      ∀ s, (index_words words s).isSome = true → s.length ≠ 2) ∧
    (∀ (fuel : Nat) (grid : Grid) (start : Nat × Nat) (d : String → Option Tag)
        (cw : String) (locs : List (Nat × Nat)) (sd : Char → Nat),
      (∀ s, (d s).isSome = true → s.length ≠ 2) →
      lettersShort grid = true →
      cw.length = 1 →
      identify_words fuel grid start d cw locs sd = []) := by
  constructor
  · intro words hw s hs
    rcases index_words_support words s hs with hm | ⟨w, hwm, i, h3, hl, rfl⟩
    · have := hw s hm
      omega
    · have : (strTake w i).length = i := by rw [strTake_length]; omega
      omega
  · intro fuel grid start d cw locs sd hd hl hcw
    cases fuel with
    | zero => rfl
    | succ fuel =>
      simp only [identify_words]
      refine List.flatMap_eq_nil_iff.mpr ?_
      intro i _
      by_cases hbi : i < 0 ∨ ((gridH grid : Int) ≤ i)
      · rw [if_pos hbi]
      · rw [if_neg hbi]
        refine List.flatMap_eq_nil_iff.mpr ?_
        intro j _
        by_cases hbj : j < 0 ∨ ((gridW grid : Int) ≤ j)
        · rw [if_pos hbj]
        · rw [if_neg hbj]
          by_cases hmem : (i.toNat, j.toNat) ∈ locs
          · rw [if_pos hmem]
          · rw [if_neg hmem]
            cases hcell : getCell grid i.toNat j.toNat with
            | none => rfl
            | some sq =>
              dsimp only
              by_cases hlet : strLower sq.letter = ""
              · rw [if_pos hlet]
              · rw [if_neg hlet]
                have h1 : (strLower sq.letter).length ≤ 1 := lettersShort_getCell hl hcell
                have h0 : (strLower sq.letter).length ≠ 0 :=
                  fun h => hlet (string_length_eq_zero.mp h)
                have hnw : (cw ++ strLower sq.letter).length = 2 := by
                  rw [String.length_append]; omega
                cases hdict : d (cw ++ strLower sq.letter) with
                | none => rfl
                | some t =>
                  exact absurd hnw (hd _ (by rw [hdict]; rfl))

theorem claim_C1_witness :
    identify_words 10 gridABC9 (0, 0) dictAbeOnly "a" [(0, 0)] (fun _ => 1) = [] ∧
    (∀ s, (index_words ["abe"] s).isSome = true → s.length ≠ 2) :=
  ⟨claim_C1_depth_two_pruning.2 10 gridABC9 (0, 0) dictAbeOnly "a" [(0, 0)] (fun _ => 1)
      (fun s h => by
        by_cases hs : s = "abe"
        · subst hs; decide
        · exfalso
          unfold dictAbeOnly at h
          rw [if_neg hs] at h
          simp at h)
      (by decide) (by decide),
   claim_C1_depth_two_pruning.1 ["abe"] (by decide)⟩

/-- C7: for a duplicate-free word list the fragment dictionary is a pure
function of the word set — permuting the input list changes no final
tag — and processing one further word never downgrades a key from
Word/Both to Fragment. -/
theorem claim_C7_index_order_independent :
    (∀ (l₁ l₂ : List String), l₁.Nodup → l₁.Perm l₂ →
      ∀ s, index_words l₁ s = index_words l₂ s) ∧
    (∀ (ws : List String) (w s : String),
      (index_words ws s = some Tag.w ∨ index_words ws s = some Tag.b) →
      (index_words (ws ++ [w]) s = some Tag.w ∨ index_words (ws ++ [w]) s = some Tag.b)) := by
  constructor
  · intro l₁ l₂ h1 hperm s
    have h2 : l₂.Nodup := hperm.nodup h1
    rw [index_words_lookup l₁ h1 s, index_words_lookup l₂ h2 s]
    have hmem : (s ∈ l₁) ↔ (s ∈ l₂) := hperm.mem_iff
    have hfrag : isFragKey l₁ s ↔ isFragKey l₂ s := by
      constructor
      · rintro ⟨h3, w, hw, hp⟩
        exact ⟨h3, w, hperm.mem_iff.mp hw, hp⟩
      · rintro ⟨h3, w, hw, hp⟩
        exact ⟨h3, w, hperm.mem_iff.mpr hw, hp⟩
    simp only [hmem, hfrag]
  · intro ws w s h
    rw [index_words_concat, processWord_lookup]
    have hstep : wordStep (index_words ws) w s = some Tag.w ∨
        wordStep (index_words ws) w s = some Tag.b := by
      rw [wordStep_lookup]
      by_cases hsw : s = w
      · rw [if_pos hsw]
        cases index_words ws w with
        | none => exact Or.inl rfl
        | some t => exact Or.inr rfl
      · rw [if_neg hsw]
        exact h
    by_cases hc : 3 ≤ s.length ∧ s.length < w.length ∧ strTake w s.length = s
    · rw [if_pos hc]
      rw [fragValue_mem_wb _ hstep]
      exact Or.inr rfl
    · rw [if_neg hc]
      exact hstep

theorem claim_C7_witness :
    ((["cat", "cats"] : List String).Nodup ∧
      (∀ s, index_words ["cat", "cats"] s = index_words ["cats", "cat"] s)) ∧
    (index_words ["cat"] "cat" = some Tag.w ∧
      (index_words (["cat"] ++ ["cats"]) "cat" = some Tag.w ∨
        index_words (["cat"] ++ ["cats"]) "cat" = some Tag.b)) :=
  ⟨⟨by decide, claim_C7_index_order_independent.1 _ _ (by decide) (by decide)⟩,
   ⟨by decide, claim_C7_index_order_independent.2 ["cat"] "cats" "cat" (Or.inl (by decide))⟩⟩

/-- C8: indexing a single word of length ≥ 3 tags the word itself Word
and every slice `w[:i]` with `3 ≤ i < len(w)` Fragment, with no other
keys, so in particular every key has length ≥ 3. -/
theorem claim_C8_single_word_index (w : String) (h3 : 3 ≤ w.length) :
    (∀ s, index_words [w] s =
      if s = w then some Tag.w
      else if 3 ≤ s.length ∧ s.length < w.length ∧ strTake w s.length = s then some Tag.f
      else none) ∧
    (index_words [w] w = some Tag.w) ∧
    (∀ i, 3 ≤ i → i < w.length → index_words [w] (strTake w i) = some Tag.f) ∧
    (∀ s, (index_words [w] s).isSome = true → 3 ≤ s.length) := by
  have hgen : ∀ s, index_words [w] s =
      if s = w then some Tag.w
      else if 3 ≤ s.length ∧ s.length < w.length ∧ strTake w s.length = s then some Tag.f
      else none := by
    intro s
    rw [index_words_lookup [w] (List.nodup_singleton w) s]
    have hiff : isFragKey [w] s ↔
        (3 ≤ s.length ∧ s.length < w.length ∧ strTake w s.length = s) := by
      constructor
      · rintro ⟨hl3, w', hw', hl, ht⟩
        rw [List.mem_singleton] at hw'
        subst hw'
        exact ⟨hl3, hl, ht⟩
      · rintro ⟨hl3, hl, ht⟩
        exact ⟨hl3, w, List.mem_singleton_self w, hl, ht⟩
    by_cases hsw : s = w
    · subst hsw
      rw [if_pos (List.mem_singleton_self s), if_pos rfl]
      have hnofrag : ¬ isFragKey [s] s := by
        intro hfk
        have := hiff.mp hfk
        omega
      rw [if_neg hnofrag]
    · rw [if_neg (by simp [hsw]), if_neg hsw]
      by_cases hc : 3 ≤ s.length ∧ s.length < w.length ∧ strTake w s.length = s
      · rw [if_pos (hiff.mpr hc), if_pos hc]
      · rw [if_neg (fun h => hc (hiff.mp h)), if_neg hc]
  refine ⟨hgen, ?_, ?_, ?_⟩
  · rw [hgen w, if_pos rfl]
  · intro i hi3 hil
    have hlen : (strTake w i).length = i := by rw [strTake_length]; omega
    have hne : strTake w i ≠ w := by
      intro h
      rw [h] at hlen
      omega
    rw [hgen, if_neg hne, if_pos ⟨by omega, by omega, by rw [hlen]⟩]
  · intro s hs
    rw [hgen s] at hs
    by_cases hsw : s = w
    · subst hsw
      omega
    · rw [if_neg hsw] at hs
      by_cases hc : 3 ≤ s.length ∧ s.length < w.length ∧ strTake w s.length = s
      · omega
      · rw [if_neg hc] at hs
        simp at hs

theorem claim_C8_witness :
    3 ≤ ("abcde" : String).length ∧
    index_words ["abcde"] "abcde" = some Tag.w ∧
    index_words ["abcde"] (strTake "abcde" 3) = some Tag.f ∧
    index_words ["abcde"] (strTake "abcde" 4) = some Tag.f :=
  ⟨by decide, (claim_C8_single_word_index "abcde" (by decide)).2.1,
   (claim_C8_single_word_index "abcde" (by decide)).2.2.1 3 (by decide) (by decide),
   (claim_C8_single_word_index "abcde" (by decide)).2.2.1 4 (by decide) (by decide)⟩

/-! ### Bonus and scoring: `identify_bonus`, `calc_score` -/

theorem identify_bonus_word (w : Word) (g : Grid) : (identify_bonus w g).word = w.word := rfl

theorem identify_bonus_locs (w : Word) (g : Grid) : (identify_bonus w g).locs = w.locs := rfl

theorem identify_bonus_bonus_sqs (w : Word) (g : Grid) :
    (identify_bonus w g).bonus_sqs = bonusSquares w.word w.locs g := rfl

theorem identify_bonus_bonus_locs (w : Word) (g : Grid) :
    (identify_bonus w g).bonus_locs = (bonusSquares w.word w.locs g).map (fun sq => sq.loc) := rfl

theorem identify_bonus_bonus_letters (w : Word) (g : Grid) :
    (identify_bonus w g).bonus_letters =
      if (String.join ((bonusSquares w.word w.locs g).map (fun sq => sq.letter))).length ≠ 0 then
        String.join ((bonusSquares w.word w.locs g).map (fun sq => sq.letter)) ++ w.word
      else String.join ((bonusSquares w.word w.locs g).map (fun sq => sq.letter)) := rfl

theorem whiteVert_mem {g : Grid} {y x : Nat} {wlocs : List (Nat × Nat)} {sq : GameSquare}
    (h : sq ∈ whiteVert g y x wlocs) :
    ∃ i : Int, (i.toNat, x) ∉ wlocs ∧ getCell g i.toNat x = some sq := by
  rcases List.mem_filterMap.mp h with ⟨i, _, hf⟩
  by_cases hb : i < 0 ∨ (gridH g : Int) ≤ i
  · rw [if_pos hb] at hf
    exact absurd hf (by simp)
  · rw [if_neg hb] at hf
    by_cases hm : (i.toNat, x) ∈ wlocs
    · rw [if_pos hm] at hf
      exact absurd hf (by simp)
    · rw [if_neg hm] at hf
      exact ⟨i, hm, hf⟩

theorem whiteHoriz_mem {g : Grid} {y x : Nat} {wlocs : List (Nat × Nat)} {sq : GameSquare}
    (h : sq ∈ whiteHoriz g y x wlocs) :
    ∃ j : Int, (y, j.toNat) ∉ wlocs ∧ getCell g y j.toNat = some sq := by
  rcases List.mem_filterMap.mp h with ⟨j, _, hf⟩
  by_cases hb : j < 0 ∨ (gridW g : Int) ≤ j
  · rw [if_pos hb] at hf
    exact absurd hf (by simp)
  · rw [if_neg hb] at hf
    cases hcell : getCell g y j.toNat with
    | none =>
      rw [hcell] at hf
      exact absurd hf (by simp)
    | some sq' =>
      rw [hcell] at hf
      dsimp only at hf
      by_cases hm : (y, j.toNat) ∉ wlocs
      · rw [if_pos hm] at hf
        simp at hf
        subst hf
        exact ⟨j, hm, hcell⟩
      · rw [if_neg hm] at hf
        exact absurd hf (by simp)

theorem noBlueOnPath_spec {w : Word} {g : Grid} (h : noBlueOnPath w g = true) :
    ∀ loc ∈ w.locs, ∀ sq, getCell g loc.1 loc.2 = some sq →
      sq.behaviour ≠ Behaviour.blue := by
  intro loc hloc sq hcell
  have h1 := (List.all_eq_true.mp h) _ hloc
  rw [hcell] at h1
  have h2 : (!(sq.behaviour == Behaviour.blue)) = true := h1
  simp at h2
  exact h2

/-- Every square freshly placed by `populate_grid` records its own position. -/
theorem locConsistent_populate_grid (cells : List (List (String × Behaviour))) :
    locConsistent (populate_grid cells) := by
  intro y x sq h
  unfold getCell populate_grid at h
  rw [List.getD_eq_getElem?_getD, List.getD_eq_getElem?_getD, List.getElem?_mapIdx] at h
  cases hrow : cells[y]? with
  | none =>
    rw [hrow] at h
    simp at h
  | some ln =>
    rw [hrow] at h
    simp only [Option.map_some', Option.getD_some] at h
    rw [List.getElem?_mapIdx] at h
    cases hc : ln[x]? with
    | none =>
      rw [hc] at h
      simp at h
    | some c =>
      rw [hc] at h
      simp only [Option.map_some', Option.getD_some, Option.some.injEq] at h
      subst h
      rfl

/-- C2 counterexample: on a 1×3 board whose two path tiles are blue, the
bonus list that `identify_bonus` attaches to the word `ab` is
`[(0,1), (0,2), (0,0), (0,2)]`: it contains both path cells and a
duplicated cell, so it is neither a deduplicated set nor disjoint from
the path. -/
theorem claim_C2_counterexample :
    (identify_bonus wordAB2 gridBlue2).bonus_locs = [(0, 1), (0, 2), (0, 0), (0, 2)] ∧
    ¬ ((identify_bonus wordAB2 gridBlue2).bonus_locs.Nodup ∧
       ∀ c ∈ (identify_bonus wordAB2 gridBlue2).bonus_locs,
         c ∉ (identify_bonus wordAB2 gridBlue2).locs) := by
  decide

/-- C2 amended: the bonus list is not deduplicated, and the same-row
additions of a Blue path tile exclude only the Blue tile itself, so they
may hit path cells; what does hold is that on a position-consistent grid
a word none of whose path tiles is Blue gets bonus cells disjoint from
its path (the non-Blue additions all check membership in the path). -/
theorem claim_C2_amended (w : Word) (g : Grid) (hcons : locConsistent g)
    (hb : noBlueOnPath w g = true) :
    ∀ c ∈ (identify_bonus w g).bonus_locs, c ∉ w.locs := by
  intro c hc
  rw [identify_bonus_bonus_locs] at hc
  rcases List.mem_map.mp hc with ⟨sq, hsq, rfl⟩
  rcases List.mem_flatMap.mp hsq with ⟨wloc, hwloc, hin⟩
  cases hcell : getCell g wloc.1 wloc.2 with
  | none =>
    rw [hcell] at hin
    simp at hin
  | some wsq =>
    rw [hcell] at hin
    dsimp only at hin
    have hnb : ¬ (wsq.behaviour = Behaviour.blue) := noBlueOnPath_spec hb _ hwloc _ hcell
    rw [if_neg hnb] at hin
    by_cases hlen : w.word.length < 5
    · rw [if_pos hlen] at hin
      simp at hin
    · rw [if_neg hlen] at hin
      rcases List.mem_append.mp hin with hv | hh
      · obtain ⟨i, hnmem, hcell2⟩ := whiteVert_mem hv
        rw [hcons _ _ _ hcell2]
        exact hnmem
      · obtain ⟨j, hnmem, hcell2⟩ := whiteHoriz_mem hh
        rw [hcons _ _ _ hcell2]
        exact hnmem

theorem claim_C2_witness :
    noBlueOnPath wordABCDE gridWhite25 = true ∧
    (∀ c ∈ (identify_bonus wordABCDE gridWhite25).bonus_locs, c ∉ wordABCDE.locs) :=
  ⟨by decide,
   claim_C2_amended wordABCDE gridWhite25
     (locConsistent_populate_grid _) (by decide)⟩

/-- C3 counterexample: on a 3×1 board where the vertical word `ab` ends
on a blue tile whose only bonus neighbour has an empty OCR letter, the
bonus set is nonempty yet `bonus_letters` stays empty, so the word's own
letters are not folded in a second time: the score is
`(1 + 1 + 0) * 2 = 4` rather than the `(1 + 1 + 1 + 1) * 2 = 8` the
bonus-set-nonempty reading of the claim would require. -/
theorem claim_C3_counterexample :
    (identify_bonus wordAB3 gridBlueEmpty).bonus_locs ≠ [] ∧
    (identify_bonus wordAB3 gridBlueEmpty).bonus_letters = "" ∧
    calc_score (identify_bonus wordAB3 gridBlueEmpty) (fun _ => 1) = 4 := by
  decide

/-- C3 amended: the trigger for folding the word's own letters into the
bonus letters is the nonemptiness of the joined bonus-square letter
string, not of the bonus set: when the joined string is nonempty the
word's letters are appended once more (hence scored twice), and when it
is empty — even with a nonempty bonus set of letterless tiles — the
bonus contribution is 0.  The score is always
`(sum of word letters + sum of bonus letters) * length`, letters
upper-cased before lookup. -/
theorem claim_C3_amended (w : Word) (g : Grid) (sd : Char → Nat) :
    (identify_bonus w g).bonus_letters =
      (if String.join ((identify_bonus w g).bonus_sqs.map (fun sq => sq.letter)) = "" then ""
       else String.join ((identify_bonus w g).bonus_sqs.map (fun sq => sq.letter)) ++ w.word) ∧
    calc_score (identify_bonus w g) sd =
      (charSum sd w.word +
        (if String.join ((identify_bonus w g).bonus_sqs.map (fun sq => sq.letter)) = "" then 0
         else
           charSum sd (String.join ((identify_bonus w g).bonus_sqs.map (fun sq => sq.letter))) +
             charSum sd w.word)) * w.word.length := by
  rw [identify_bonus_bonus_sqs]
  have hletters := identify_bonus_bonus_letters w g
  by_cases hJ : String.join ((bonusSquares w.word w.locs g).map (fun sq => sq.letter)) = ""
  · have hlen : ¬ ((String.join ((bonusSquares w.word w.locs g).map (fun sq => sq.letter))).length ≠ 0) := by
      rw [hJ]
      simp
    rw [if_neg hlen] at hletters
    constructor
    · rw [hletters, hJ, if_pos rfl]
    · rw [if_pos hJ]
      unfold calc_score
      rw [identify_bonus_word, hletters, hJ, charSum_empty]
  · have hlen : (String.join ((bonusSquares w.word w.locs g).map (fun sq => sq.letter))).length ≠ 0 := by
      intro h
      exact hJ (string_length_eq_zero.mp h)
    rw [if_pos hlen] at hletters
    constructor
    · rw [hletters, if_neg hJ]
    · rw [if_neg hJ]
      unfold calc_score
      rw [identify_bonus_word, hletters, charSum_append]

/-- C10: re-running `identify_bonus` followed by `calc_score` on a word
already processed by them against the same grid changes nothing: all
bonus fields and the score are recomputed from the grid and the word's
unchanged text and path alone, so the enclosing recursion levels of the
generator may re-apply both without altering the yielded word. -/
theorem claim_C10_rescore_idempotent (w : Word) (g : Grid) (sd : Char → Nat) :
    rescore (rescore w g sd) g sd = rescore w g sd ∧
    (rescore w g sd).word = w.word ∧ (rescore w g sd).locs = w.locs :=
  ⟨rfl, rfl, rfl⟩

/-! ### Column compaction -/

theorem compactPassAux_nil (x y : Nat) (prev : Option GameSquare) :
    compactPassAux x y prev [] = ([prev], false) := rfl

theorem compactPassAux_swap (x y : Nat) (t : GameSquare) (rest : List (Option GameSquare)) :
    compactPassAux x y (some t) (none :: rest) =
      (none :: (compactPassAux x (y + 1) (some { t with loc := (y, x) }) rest).1, true) := rfl

theorem compactPassAux_keep_some (x y : Nat) (prev : Option GameSquare) (c : GameSquare)
    (rest : List (Option GameSquare)) :
    compactPassAux x y prev (some c :: rest) =
      (prev :: (compactPassAux x (y + 1) (some c) rest).1,
        (compactPassAux x (y + 1) (some c) rest).2) := rfl

theorem compactPassAux_keep_none (x y : Nat) (rest : List (Option GameSquare)) :
    compactPassAux x y none (none :: rest) =
      (none :: (compactPassAux x (y + 1) none rest).1,
        (compactPassAux x (y + 1) none rest).2) := rfl

theorem noneWeight_cons_none (b : Nat) (cs : List (Option GameSquare)) :
    noneWeight b (none :: cs) = b + noneWeight (b + 1) cs := rfl

theorem noneWeight_cons_some (b : Nat) (t : GameSquare) (cs : List (Option GameSquare)) :
    noneWeight b (some t :: cs) = noneWeight (b + 1) cs := by
  show 0 + noneWeight (b + 1) cs = noneWeight (b + 1) cs
  omega

theorem colView_cons_none (l : List (Option GameSquare)) : colView (none :: l) = colView l := rfl

theorem colView_cons_some (a : GameSquare) (l : List (Option GameSquare)) :
    colView (some a :: l) = (a.letter, a.behaviour) :: colView l := rfl

theorem compactPassAux_length (x : Nat) :
    ∀ (rest : List (Option GameSquare)) (y : Nat) (prev : Option GameSquare),
      (compactPassAux x y prev rest).1.length = rest.length + 1 := by
  intro rest
  induction rest with
  | nil => intro y prev; rfl
  | cons cur rest ih =>
    intro y prev
    cases cur with
    | some c =>
      rw [compactPassAux_keep_some]
      simp [ih]
    | none =>
      cases prev with
      | some t =>
        rw [compactPassAux_swap]
        simp [ih]
      | none =>
        rw [compactPassAux_keep_none]
        simp [ih]

theorem compactPassAux_eq_of_false (x : Nat) :
    ∀ (rest : List (Option GameSquare)) (y : Nat) (prev : Option GameSquare),
      (compactPassAux x y prev rest).2 = false →
      (compactPassAux x y prev rest).1 = prev :: rest := by
  intro rest
  induction rest with
  | nil => intro y prev _; rfl
  | cons cur rest ih =>
    intro y prev h
    cases cur with
    | some c =>
      rw [compactPassAux_keep_some] at h ⊢
      rw [ih (y + 1) (some c) h]
    | none =>
      cases prev with
      | some t =>
        rw [compactPassAux_swap] at h
        exact absurd h (by simp)
      | none =>
        rw [compactPassAux_keep_none] at h ⊢
        rw [ih (y + 1) none h]

theorem compactPassAux_noneWeight (x : Nat) :
    ∀ (rest : List (Option GameSquare)) (b : Nat) (prev : Option GameSquare),
      (compactPassAux x (b + 1) prev rest).2 = true →
      noneWeight b ((compactPassAux x (b + 1) prev rest).1) < noneWeight b (prev :: rest) := by
  intro rest
  induction rest with
  | nil =>
    intro b prev h
    rw [compactPassAux_nil] at h
    exact absurd h (by simp)
  | cons cur rest ih =>
    intro b prev h
    cases cur with
    | some c =>
      rw [compactPassAux_keep_some] at h ⊢
      have hlt := ih (b + 1) (some c) h
      cases prev with
      | none =>
        rw [noneWeight_cons_none, noneWeight_cons_none]
        omega
      | some t =>
        rw [noneWeight_cons_some, noneWeight_cons_some]
        exact hlt
    | none =>
      cases prev with
      | some t =>
        rw [compactPassAux_swap]
        rw [noneWeight_cons_none, noneWeight_cons_some, noneWeight_cons_none]
        cases hsub : (compactPassAux x (b + 1 + 1) (some { t with loc := (b + 1, x) }) rest).2 with
        | true =>
          have hlt := ih (b + 1) (some { t with loc := (b + 1, x) }) hsub
          rw [noneWeight_cons_some] at hlt
          omega
        | false =>
          have heq := compactPassAux_eq_of_false x rest (b + 1 + 1)
            (some { t with loc := (b + 1, x) }) hsub
          rw [heq, noneWeight_cons_some]
          omega
      | none =>
        rw [compactPassAux_keep_none] at h ⊢
        have hlt := ih (b + 1) none h
        rw [noneWeight_cons_none, noneWeight_cons_none]
        omega

theorem compactPassAux_view (x : Nat) :
    ∀ (rest : List (Option GameSquare)) (y : Nat) (prev : Option GameSquare),
      colView ((compactPassAux x y prev rest).1) = colView (prev :: rest) := by
  intro rest
  induction rest with
  | nil => intro y prev; rfl
  | cons cur rest ih =>
    intro y prev
    cases cur with
    | some c =>
      rw [compactPassAux_keep_some]
      cases prev with
      | none =>
        rw [colView_cons_none, colView_cons_none, ih]
      | some t =>
        rw [colView_cons_some, colView_cons_some, ih]
    | none =>
      cases prev with
      | some t =>
        rw [compactPassAux_swap]
        rw [colView_cons_none, colView_cons_some, colView_cons_none, ih, colView_cons_some]
      | none =>
        rw [compactPassAux_keep_none]
        rw [colView_cons_none, colView_cons_none, colView_cons_none, ih, colView_cons_none]

theorem compactPassAux_sorted (x : Nat) :
    ∀ (rest : List (Option GameSquare)) (y : Nat) (prev : Option GameSquare),
      (compactPassAux x y prev rest).2 = false → nonesFirst (prev :: rest) = true := by
  intro rest
  induction rest with
  | nil =>
    intro y prev _
    cases prev <;> rfl
  | cons cur rest ih =>
    intro y prev h
    cases cur with
    | some c =>
      rw [compactPassAux_keep_some] at h
      have hih := ih (y + 1) (some c) h
      cases prev with
      | none => exact hih
      | some t =>
        show (some c :: rest).all Option.isSome = true
        have : rest.all Option.isSome = true := hih
        simp [this, Option.isSome]
    | none =>
      cases prev with
      | some t =>
        rw [compactPassAux_swap] at h
        exact absurd h (by simp)
      | none =>
        rw [compactPassAux_keep_none] at h
        exact ih (y + 1) none h

theorem nonesFirst_shape :
    ∀ (col : List (Option GameSquare)), nonesFirst col = true →
      col = List.replicate (col.countP Option.isNone) none ++ col.filter Option.isSome := by
  intro col
  induction col with
  | nil => intro _; rfl
  | cons c rest ih =>
    intro h
    cases c with
    | none =>
      have hih := ih h
      have hcount : (none :: rest).countP Option.isNone = rest.countP Option.isNone + 1 := by
        rw [List.countP_cons]
        simp [Option.isNone]
      have hfilter : (none :: rest).filter Option.isSome = rest.filter Option.isSome := by
        rw [List.filter_cons]
        simp [Option.isSome]
      rw [hcount, hfilter, List.replicate_succ, List.cons_append, ← hih]
    | some a =>
      have hall : rest.all Option.isSome = true := h
      have hcount : (some a :: rest).countP Option.isNone = 0 := by
        rw [List.countP_eq_zero]
        intro b hb
        rcases List.mem_cons.mp hb with rfl | hb
        · simp [Option.isNone]
        · have := (List.all_eq_true.mp hall) b hb
          cases b with
          | none => simp at this
          | some b' => simp [Option.isNone]
      have hfilter : (some a :: rest).filter Option.isSome = some a :: rest := by
        rw [List.filter_eq_self]
        intro b hb
        rcases List.mem_cons.mp hb with rfl | hb
        · rfl
        · exact (List.all_eq_true.mp hall) b hb
      rw [hcount, hfilter]
      rfl

theorem compactPassAux_consistent (x : Nat) :
    ∀ (rest : List (Option GameSquare)) (b : Nat) (prev : Option GameSquare),
      (∀ t, prev = some t → t.loc = (b, x)) →
      (∀ n sq, rest.getD n none = some sq → sq.loc = (b + 1 + n, x)) →
      ∀ n sq, ((compactPassAux x (b + 1) prev rest).1).getD n none = some sq →
        sq.loc = (b + n, x) := by
  intro rest
  induction rest with
  | nil =>
    intro b prev hp _ n sq h
    rw [compactPassAux_nil] at h
    cases n with
    | zero =>
      have : prev = some sq := h
      have := hp sq this
      simpa using this
    | succ n =>
      rw [getD_oob none (by simp)] at h
      exact absurd h (by simp)
  | cons cur rest ih =>
    intro b prev hp hr n sq h
    have hcur : ∀ t, cur = some t → t.loc = (b + 1, x) := by
      intro t ht
      have := hr 0 t (by rw [List.getD_cons_zero]; exact ht)
      simpa using this
    have htail : ∀ n sq, rest.getD n none = some sq → sq.loc = (b + 1 + 1 + n, x) := by
      intro m sq' h'
      have := hr (m + 1) sq' (by rw [List.getD_cons_succ]; exact h')
      have harith : b + 1 + (m + 1) = b + 1 + 1 + m := by omega
      rw [harith] at this
      exact this
    cases cur with
    | some c =>
      rw [compactPassAux_keep_some] at h
      cases n with
      | zero =>
        rw [List.getD_cons_zero] at h
        have := hp sq h
        simpa using this
      | succ n =>
        rw [List.getD_cons_succ] at h
        have := ih (b + 1) (some c) hcur htail n sq h
        have harith : b + 1 + n = b + (n + 1) := by omega
        rw [harith] at this
        exact this
    | none =>
      cases prev with
      | some t =>
        rw [compactPassAux_swap] at h
        cases n with
        | zero =>
          rw [List.getD_cons_zero] at h
          exact absurd h (by simp)
        | succ n =>
          rw [List.getD_cons_succ] at h
          have hp' : ∀ t', some { t with loc := (b + 1, x) } = some t' →
              t'.loc = (b + 1, x) := by
            intro t' ht'
            have : { t with loc := (b + 1, x) } = t' := by
              injection ht'
            rw [← this]
          have := ih (b + 1) (some { t with loc := (b + 1, x) }) hp' htail n sq h
          have harith : b + 1 + n = b + (n + 1) := by omega
          rw [harith] at this
          exact this
      | none =>
        rw [compactPassAux_keep_none] at h
        cases n with
        | zero =>
          rw [List.getD_cons_zero] at h
          exact absurd h (by simp)
        | succ n =>
          rw [List.getD_cons_succ] at h
          have := ih (b + 1) none (by intro t ht; exact absurd ht (by simp)) htail n sq h
          have harith : b + 1 + n = b + (n + 1) := by omega
          rw [harith] at this
          exact this

theorem compactPass_length (x : Nat) (col : List (Option GameSquare)) :
    (compactPass x col).1.length = col.length := by
  cases col with
  | nil => rfl
  | cons c cs => exact compactPassAux_length x cs 1 c

theorem compactPass_eq_of_false (x : Nat) (col : List (Option GameSquare))
    (h : (compactPass x col).2 = false) : (compactPass x col).1 = col := by
  cases col with
  | nil => rfl
  | cons c cs => exact compactPassAux_eq_of_false x cs 1 c h

theorem compactPass_noneWeight (x : Nat) (col : List (Option GameSquare))
    (h : (compactPass x col).2 = true) :
    noneWeight 0 (compactPass x col).1 < noneWeight 0 col := by
  cases col with
  | nil => exact absurd h (by simp [compactPass])
  | cons c cs => exact compactPassAux_noneWeight x cs 0 c h

theorem compactPass_view (x : Nat) (col : List (Option GameSquare)) :
    colView (compactPass x col).1 = colView col := by
  cases col with
  | nil => rfl
  | cons c cs => exact compactPassAux_view x cs 1 c

theorem compactPass_sorted (x : Nat) (col : List (Option GameSquare))
    (h : (compactPass x col).2 = false) : nonesFirst col = true := by
  cases col with
  | nil => rfl
  | cons c cs => exact compactPassAux_sorted x cs 1 c h

theorem compactPass_consistent (x : Nat) (col : List (Option GameSquare))
    (h : colConsistent x 0 col) : colConsistent x 0 (compactPass x col).1 := by
  cases col with
  | nil => intro n sq hn; exact h n sq hn
  | cons c cs =>
    intro n sq hn
    refine compactPassAux_consistent x cs 0 c ?_ ?_ n sq hn
    · intro t ht
      have := h 0 t (by rw [List.getD_cons_zero]; exact ht)
      simpa using this
    · intro m sq' h'
      have := h (m + 1) sq' (by rw [List.getD_cons_succ]; exact h')
      have harith : 0 + (m + 1) = 0 + 1 + m := by omega
      rw [harith] at this
      exact this

theorem compactColLoop_length (x : Nat) :
    ∀ (fuel : Nat) (col : List (Option GameSquare)),
      (compactColLoop x fuel col).length = col.length := by
  intro fuel
  induction fuel with
  | zero => intro col; rfl
  | succ fuel ih =>
    intro col
    show (if (compactPass x col).2 then compactColLoop x fuel (compactPass x col).1
      else (compactPass x col).1).length = col.length
    cases hr : (compactPass x col).2 with
    | true =>
      rw [if_pos rfl, ih]
      exact compactPass_length x col
    | false =>
      rw [if_neg (by simp)]
      exact compactPass_length x col

theorem compactColLoop_view (x : Nat) :
    ∀ (fuel : Nat) (col : List (Option GameSquare)),
      colView (compactColLoop x fuel col) = colView col := by
  intro fuel
  induction fuel with
  | zero => intro col; rfl
  | succ fuel ih =>
    intro col
    show colView (if (compactPass x col).2 then compactColLoop x fuel (compactPass x col).1
      else (compactPass x col).1) = colView col
    cases hr : (compactPass x col).2 with
    | true =>
      rw [if_pos rfl, ih]
      exact compactPass_view x col
    | false =>
      rw [if_neg (by simp)]
      exact compactPass_view x col

theorem compactColLoop_consistent (x : Nat) :
    ∀ (fuel : Nat) (col : List (Option GameSquare)), colConsistent x 0 col →
      colConsistent x 0 (compactColLoop x fuel col) := by
  intro fuel
  induction fuel with
  | zero => intro col h; exact h
  | succ fuel ih =>
    intro col h
    show colConsistent x 0 (if (compactPass x col).2 then
      compactColLoop x fuel (compactPass x col).1 else (compactPass x col).1)
    cases hr : (compactPass x col).2 with
    | true =>
      rw [if_pos rfl]
      exact ih _ (compactPass_consistent x col h)
    | false =>
      rw [if_neg (by simp)]
      exact compactPass_consistent x col h

theorem compactColLoop_fixpoint (x : Nat) :
    ∀ (fuel : Nat) (col : List (Option GameSquare)), noneWeight 0 col < fuel →
      compactPass x (compactColLoop x fuel col) = (compactColLoop x fuel col, false) := by
  intro fuel
  induction fuel with
  | zero => intro col h; omega
  | succ fuel ih =>
    intro col h
    show compactPass x (if (compactPass x col).2 then
        compactColLoop x fuel (compactPass x col).1 else (compactPass x col).1) =
      ((if (compactPass x col).2 then compactColLoop x fuel (compactPass x col).1
        else (compactPass x col).1), false)
    cases hr : (compactPass x col).2 with
    | true =>
      rw [if_pos rfl]
      refine ih (compactPass x col).1 ?_
      have := compactPass_noneWeight x col hr
      omega
    | false =>
      rw [if_neg (by simp)]
      rw [compactPass_eq_of_false x col hr]
      exact Prod.ext (compactPass_eq_of_false x col hr) hr

theorem compactColLoop_stable (x : Nat) :
    ∀ (fuel : Nat) (col : List (Option GameSquare)) (fuel' : Nat),
      noneWeight 0 col < fuel → fuel ≤ fuel' →
      compactColLoop x fuel' col = compactColLoop x fuel col := by
  intro fuel
  induction fuel with
  | zero => intro col fuel' h _; omega
  | succ fuel ih =>
    intro col fuel' h hle
    cases fuel' with
    | zero => omega
    | succ fuel' =>
      show (if (compactPass x col).2 then compactColLoop x fuel' (compactPass x col).1
          else (compactPass x col).1) =
        (if (compactPass x col).2 then compactColLoop x fuel (compactPass x col).1
          else (compactPass x col).1)
      cases hr : (compactPass x col).2 with
      | true =>
        rw [if_pos rfl, if_pos rfl]
        have hw := compactPass_noneWeight x col hr
        exact ih (compactPass x col).1 fuel' (by omega) (by omega)
      | false =>
        rw [if_neg (by simp), if_neg (by simp)]

theorem compactColumn_fixpoint (x : Nat) (col : List (Option GameSquare)) :
    compactPass x (compactColumn x col) = (compactColumn x col, false) :=
  compactColLoop_fixpoint x (noneWeight 0 col + 1) col (by omega)

theorem compactColumn_run (x : Nat) (col : List (Option GameSquare)) :
    ∀ f, noneWeight 0 col < f → compactColLoop x f col = compactColumn x col := by
  intro f hf
  exact compactColLoop_stable x (noneWeight 0 col + 1) col f (by omega) (by omega)

theorem compactColumn_length (x : Nat) (col : List (Option GameSquare)) :
    (compactColumn x col).length = col.length :=
  compactColLoop_length x _ col

theorem compactColumn_view (x : Nat) (col : List (Option GameSquare)) :
    colView (compactColumn x col) = colView col :=
  compactColLoop_view x _ col

theorem compactColumn_consistent (x : Nat) (col : List (Option GameSquare))
    (h : colConsistent x 0 col) : colConsistent x 0 (compactColumn x col) :=
  compactColLoop_consistent x _ col h

theorem compactColumn_shape (x : Nat) (col : List (Option GameSquare)) :
    compactColumn x col =
      List.replicate ((compactColumn x col).countP Option.isNone) none ++
        (compactColumn x col).filter Option.isSome := by
  apply nonesFirst_shape
  apply compactPass_sorted x (compactColumn x col)
  rw [compactColumn_fixpoint x col]

/-! ### Grid plumbing -/

theorem getD_set_self {α : Type} (l : List α) (i : Nat) (a d : α) (h : i < l.length) :
    (l.set i a).getD i d = a := by
  rw [List.getD_eq_getElem?_getD, List.getElem?_set_self h]
  rfl

theorem getD_set_ne {α : Type} (l : List α) {i j : Nat} (a d : α) (h : i ≠ j) :
    (l.set i a).getD j d = l.getD j d := by
  rw [List.getD_eq_getElem?_getD, List.getElem?_set_ne h, ← List.getD_eq_getElem?_getD]

theorem getCol_getD (g : Grid) (x y : Nat) : (getCol x g).getD y none = getCell g y x := by
  have h := @List.getD_map _ _ g [] y (fun row => row.getD x none)
  simpa [getCol, getCell] using h

theorem length_getCol (x : Nat) (g : Grid) : (getCol x g).length = g.length := by
  simp [getCol]

theorem gridH_setCell (g : Grid) (y x : Nat) (v : Option GameSquare) :
    gridH (setCell g y x v) = gridH g := by
  simp [gridH, setCell]

theorem widthOK_setCell {g : Grid} {W : Nat} (h : ∀ row ∈ g, row.length = W)
    (y x : Nat) (v : Option GameSquare) : ∀ row ∈ setCell g y x v, row.length = W := by
  intro row hrow
  by_cases hy : y < g.length
  · rcases List.mem_or_eq_of_mem_set hrow with hm | rfl
    · exact h row hm
    · rw [List.length_set]
      exact h _ (getD_mem hy)
  · have hid : setCell g y x v = g := by
      unfold setCell
      exact List.set_eq_of_length_le (by omega)
    rw [hid] at hrow
    exact h row hrow

theorem getCell_setCell_ne (g : Grid) (y x y' x' : Nat) (v : Option GameSquare)
    (h : y' ≠ y ∨ x' ≠ x) :
    getCell (setCell g y x v) y' x' = getCell g y' x' := by
  unfold getCell setCell
  by_cases hy : y' = y
  · subst hy
    have hx : x' ≠ x := by tauto
    by_cases hlen : y' < g.length
    · rw [getD_set_self g y' _ [] hlen, getD_set_ne _ _ _ (fun h => hx h.symm)]
    · rw [List.set_eq_of_length_le (by omega)]
  · rw [getD_set_ne _ _ _ (fun h => hy h.symm)]

theorem getCell_setCell_self (g : Grid) (y x : Nat) (v : Option GameSquare)
    (hy : y < g.length) (hx : x < (g.getD y []).length) :
    getCell (setCell g y x v) y x = v := by
  unfold getCell setCell
  rw [getD_set_self g y _ [] hy, getD_set_self _ x _ none hx]

theorem getCell_setCell_none_cases (g : Grid) (y x y' x' : Nat) :
    getCell (setCell g y x none) y' x' = getCell g y' x' ∨
    getCell (setCell g y x none) y' x' = none := by
  by_cases h : y' = y ∧ x' = x
  · obtain ⟨rfl, rfl⟩ := h
    by_cases hy : y' < g.length
    · by_cases hx : x' < (g.getD y' []).length
      · exact Or.inr (getCell_setCell_self g y' x' none hy hx)
      · left
        unfold getCell setCell
        rw [getD_set_self g y' _ [] hy, List.set_eq_of_length_le (by omega)]
    · left
      unfold getCell setCell
      rw [List.set_eq_of_length_le (by omega)]
  · left
    apply getCell_setCell_ne
    tauto

theorem eraseCells_some :
    ∀ (locs : List (Nat × Nat)) (g : Grid) (y x : Nat) (sq : GameSquare),
      getCell (eraseCells locs g) y x = some sq → getCell g y x = some sq := by
  intro locs
  induction locs with
  | nil => intro g y x sq h; exact h
  | cons l ls ih =>
    intro g y x sq h
    have h1 : getCell (setCell g l.1 l.2 none) y x = some sq := ih _ y x sq h
    rcases getCell_setCell_none_cases g l.1 l.2 y x with he | he
    · rw [← he]; exact h1
    · rw [he] at h1; exact absurd h1 (by simp)

theorem gridH_eraseCells : ∀ (locs : List (Nat × Nat)) (g : Grid),
    gridH (eraseCells locs g) = gridH g := by
  intro locs
  induction locs with
  | nil => intro g; rfl
  | cons l ls ih =>
    intro g
    show gridH (eraseCells ls (setCell g l.1 l.2 none)) = gridH g
    rw [ih, gridH_setCell]

theorem widthOK_eraseCells : ∀ (locs : List (Nat × Nat)) (g : Grid) (W : Nat),
    (∀ row ∈ g, row.length = W) → ∀ row ∈ eraseCells locs g, row.length = W := by
  intro locs
  induction locs with
  | nil => intro g W h; exact h
  | cons l ls ih =>
    intro g W h
    exact ih _ W (widthOK_setCell h l.1 l.2 none)

theorem headD_mem {α : Type} {l : List α} (h : l ≠ []) (d : α) : l.headD d ∈ l := by
  cases l with
  | nil => exact absurd rfl h
  | cons a l => exact List.mem_cons_self a l

theorem gridW_of_widthOK {g : Grid} {W : Nat} (h : ∀ row ∈ g, row.length = W)
    (hne : g ≠ []) : gridW g = W := h _ (headD_mem hne [])

theorem eraseCells_nil_grid : ∀ (locs : List (Nat × Nat)),
    eraseCells locs [] = [] := by
  intro locs
  induction locs with
  | nil => rfl
  | cons l ls ih =>
    show eraseCells ls (setCell [] l.1 l.2 none) = []
    have : setCell [] l.1 l.2 none = [] := by
      simp [setCell]
    rw [this, ih]

theorem gridW_eraseCells (locs : List (Nat × Nat)) (g : Grid) (hr : rectangular g) :
    gridW (eraseCells locs g) = gridW g := by
  by_cases hg : g = []
  · subst hg
    rw [eraseCells_nil_grid]
  · have hW := widthOK_eraseCells locs g (gridW g) hr
    have hne : eraseCells locs g ≠ [] := by
      intro h
      have := gridH_eraseCells locs g
      rw [h] at this
      simp [gridH] at this
      exact hg (List.length_eq_zero.mp this.symm)
    exact gridW_of_widthOK hW hne

theorem rectangular_eraseCells (locs : List (Nat × Nat)) (g : Grid) (hr : rectangular g) :
    rectangular (eraseCells locs g) := by
  intro row hrow
  rw [gridW_eraseCells locs g hr]
  exact widthOK_eraseCells locs g (gridW g) hr row hrow

theorem getCol_setCol_self (x : Nat) :
    ∀ (g : Grid) (col : List (Option GameSquare)), col.length = g.length →
      (∀ row ∈ g, x < row.length) → getCol x (setCol x col g) = col := by
  intro g
  induction g with
  | nil =>
    intro col hlen _
    have hc : col = [] := List.length_eq_zero.mp (by simpa using hlen)
    subst hc
    rfl
  | cons row g ih =>
    intro col hlen hx
    cases col with
    | nil => simp at hlen
    | cons c col =>
      show (row.set x c).getD x none :: getCol x (setCol x col g) = c :: col
      rw [getD_set_self row x c none (hx row (List.mem_cons_self _ _))]
      rw [ih col (by simpa using hlen) (fun r hr => hx r (List.mem_cons_of_mem _ hr))]

theorem getCol_setCol_ne {x x' : Nat} (hne : x ≠ x') :
    ∀ (g : Grid) (col : List (Option GameSquare)), col.length = g.length →
      getCol x (setCol x' col g) = getCol x g := by
  intro g
  induction g with
  | nil => intro col _; rfl
  | cons row g ih =>
    intro col hlen
    cases col with
    | nil => simp at hlen
    | cons c col =>
      show (row.set x' c).getD x none :: getCol x (setCol x' col g) =
        row.getD x none :: getCol x g
      rw [getD_set_ne row c none (fun h => hne h.symm)]
      rw [ih col (by simpa using hlen)]

theorem length_setCol (x : Nat) (g : Grid) (col : List (Option GameSquare))
    (hlen : col.length = g.length) : (setCol x col g).length = g.length := by
  unfold setCol
  rw [List.length_zipWith]
  omega

theorem widthOK_setCol {g : Grid} {W : Nat} (h : ∀ row ∈ g, row.length = W) (x : Nat) :
    ∀ (col : List (Option GameSquare)), ∀ row ∈ setCol x col g, row.length = W := by
  unfold setCol
  induction g with
  | nil => intro col row hrow; simp at hrow
  | cons r g ih =>
    intro col row hrow
    cases col with
    | nil => simp at hrow
    | cons c col =>
      rcases List.mem_cons.mp hrow with rfl | hrow
      · rw [List.length_set]
        exact h r (List.mem_cons_self _ _)
      · exact ih (fun r' hr' => h r' (List.mem_cons_of_mem _ hr')) col row hrow

/-- One per-column step of the compaction loop written out. -/
theorem compactStep_widthOK {g : Grid} {W : Nat} (h : ∀ row ∈ g, row.length = W) (x : Nat) :
    ∀ row ∈ setCol x (compactColumn x (getCol x g)) g, row.length = W :=
  widthOK_setCol h x _

theorem compactStep_length (g : Grid) (x : Nat) :
    (setCol x (compactColumn x (getCol x g)) g).length = g.length := by
  apply length_setCol
  rw [compactColumn_length, length_getCol]

theorem compactFold_getCol :
    ∀ (xs : List Nat) (g : Grid) (W : Nat), (∀ row ∈ g, row.length = W) →
      (∀ x' ∈ xs, x' < W) → xs.Nodup → ∀ x,
      getCol x (xs.foldl (fun h x' => setCol x' (compactColumn x' (getCol x' h)) h) g) =
        if x ∈ xs then compactColumn x (getCol x g) else getCol x g := by
  intro xs
  induction xs with
  | nil => intro g W _ _ _ x; simp
  | cons x0 xs ih =>
    intro g W hW hbnd hnd x
    have hx0 : x0 < W := hbnd x0 (List.mem_cons_self _ _)
    have hnd' : xs.Nodup := hnd.of_cons
    have hx0out : x0 ∉ xs := (List.nodup_cons.mp hnd).1
    have hcollen : (compactColumn x0 (getCol x0 g)).length = g.length := by
      rw [compactColumn_length, length_getCol]
    have hW' : ∀ row ∈ setCol x0 (compactColumn x0 (getCol x0 g)) g, row.length = W :=
      compactStep_widthOK hW x0
    have hg' := ih (setCol x0 (compactColumn x0 (getCol x0 g)) g) W hW'
      (fun x' hx' => hbnd x' (List.mem_cons_of_mem _ hx')) hnd' x
    show getCol x (xs.foldl _ (setCol x0 (compactColumn x0 (getCol x0 g)) g)) = _
    rw [hg']
    have hcol : getCol x (setCol x0 (compactColumn x0 (getCol x0 g)) g) =
        if x = x0 then compactColumn x0 (getCol x0 g) else getCol x g := by
      by_cases hxx : x = x0
      · subst hxx
        rw [if_pos rfl]
        exact getCol_setCol_self x g _ hcollen (fun row hrow => by rw [hW row hrow]; exact hx0)
      · rw [if_neg hxx]
        exact getCol_setCol_ne hxx g _ hcollen
    by_cases hmem : x ∈ xs
    · have hxx : x ≠ x0 := fun h => hx0out (h ▸ hmem)
      rw [if_pos hmem, if_pos (List.mem_cons_of_mem _ hmem), hcol, if_neg hxx]
    · rw [if_neg hmem, hcol]
      by_cases hxx : x = x0
      · subst hxx
        rw [if_pos rfl, if_pos (List.mem_cons_self _ _)]
      · rw [if_neg hxx, if_neg (by simp [hxx, hmem])]

theorem compactFold_widthOK :
    ∀ (xs : List Nat) (g : Grid) (W : Nat), (∀ row ∈ g, row.length = W) →
      ∀ row ∈ xs.foldl (fun h x' => setCol x' (compactColumn x' (getCol x' h)) h) g,
        row.length = W := by
  intro xs
  induction xs with
  | nil => intro g W h; exact h
  | cons x0 xs ih =>
    intro g W hW
    exact ih _ W (compactStep_widthOK hW x0)

theorem compactFold_length :
    ∀ (xs : List Nat) (g : Grid),
      (xs.foldl (fun h x' => setCol x' (compactColumn x' (getCol x' h)) h) g).length =
        g.length := by
  intro xs
  induction xs with
  | nil => intro g; rfl
  | cons x0 xs ih =>
    intro g
    show (xs.foldl _ (setCol x0 (compactColumn x0 (getCol x0 g)) g)).length = g.length
    rw [ih, compactStep_length]

theorem gridH_compactGrid (g : Grid) : gridH (compactGrid g) = gridH g :=
  compactFold_length _ g

theorem gridW_compactGrid (g : Grid) (hr : rectangular g) :
    gridW (compactGrid g) = gridW g := by
  by_cases hg : g = []
  · subst hg; rfl
  · have hW := compactFold_widthOK (List.range (gridW g)) g (gridW g) hr
    have hne : compactGrid g ≠ [] := by
      intro h
      have := gridH_compactGrid g
      rw [h] at this
      simp [gridH] at this
      exact hg (List.length_eq_zero.mp this.symm)
    exact gridW_of_widthOK hW hne

theorem rectangular_compactGrid (g : Grid) (hr : rectangular g) :
    rectangular (compactGrid g) := by
  intro row hrow
  rw [gridW_compactGrid g hr]
  exact compactFold_widthOK (List.range (gridW g)) g (gridW g) hr row hrow

theorem compactGrid_getCol (g : Grid) (hr : rectangular g) (x : Nat) (hx : x < gridW g) :
    getCol x (compactGrid g) = compactColumn x (getCol x g) := by
  have h := compactFold_getCol (List.range (gridW g)) g (gridW g) hr
    (fun x' hx' => List.mem_range.mp hx') (List.nodup_range _) x
  rw [if_pos (List.mem_range.mpr hx)] at h
  exact h

theorem getCell_oob_of_rect {g : Grid} (hr : rectangular g) {y x : Nat}
    (hx : gridW g ≤ x) : getCell g y x = none := by
  unfold getCell
  by_cases hy : y < g.length
  · have := hr _ (@getD_mem (List (Option GameSquare)) g y [] hy)
    rw [getD_oob none (by omega)]
  · rw [getD_oob [] (by omega)]
    rfl

/-- C4: on a rectangular grid, the compaction phase of `remove_word`
reaches the no-swap fixpoint of the repeated pass within its fuel (and
any larger fuel computes the same column), and afterwards each column
consists of its holes packed contiguously at the smallest row indices
followed by its surviving tiles, whose letters and behaviours appear in
the same relative order — hence as the same multiset — as right after
the removal phase. -/
theorem claim_C4_compaction_correct (w : Word) (g : Grid) (x : Nat)
    (hr : rectangular g) (hx : x < gridW g) :
    (compactPass x (getCol x (remove_word w g)) = (getCol x (remove_word w g), false)) ∧
    (∀ f, noneWeight 0 (getCol x (removedPhase w g)) < f →
      compactColLoop x f (getCol x (removedPhase w g)) = getCol x (remove_word w g)) ∧
    (getCol x (remove_word w g) =
      List.replicate ((getCol x (remove_word w g)).countP Option.isNone) none ++
        (getCol x (remove_word w g)).filter Option.isSome) ∧
    (colView (getCol x (remove_word w g)) = colView (getCol x (removedPhase w g))) := by
  have hr1 : rectangular (removedPhase w g) := by
    unfold removedPhase
    exact rectangular_eraseCells _ _ (rectangular_eraseCells _ _ hr)
  have hW1 : gridW (removedPhase w g) = gridW g := by
    unfold removedPhase
    rw [gridW_eraseCells _ _ (rectangular_eraseCells _ _ hr), gridW_eraseCells _ _ hr]
  have hglue : getCol x (remove_word w g) = compactColumn x (getCol x (removedPhase w g)) := by
    unfold remove_word
    exact compactGrid_getCol _ hr1 x (by omega)
  refine ⟨?_, ?_, ?_, ?_⟩
  · rw [hglue]
    exact compactColumn_fixpoint x _
  · intro f hf
    rw [hglue]
    exact compactColumn_run x _ f hf
  · rw [hglue]
    exact compactColumn_shape x _
  · rw [hglue]
    exact compactColumn_view x _

theorem claim_C4_witness :
    rectangular gridCol4 ∧ 0 < gridW gridCol4 ∧
    (compactPass 0 (getCol 0 (remove_word wordC1of4 gridCol4)) =
      (getCol 0 (remove_word wordC1of4 gridCol4), false)) ∧
    (colView (getCol 0 (remove_word wordC1of4 gridCol4)) =
      colView (getCol 0 (removedPhase wordC1of4 gridCol4))) :=
  ⟨by decide, by decide,
   (claim_C4_compaction_correct wordC1of4 gridCol4 0 (by decide) (by decide)).1,
   (claim_C4_compaction_correct wordC1of4 gridCol4 0 (by decide) (by decide)).2.2.2⟩

/-- C5: after grid construction every placed square records its own
position, and `remove_word` (removal of the path and bonus cells
followed by per-column compaction, which re-stamps every moved square's
location) preserves this consistency on rectangular grids: every cell is
either empty or holds a square whose recorded location is its position. -/
theorem claim_C5_positions_consistent :
    (∀ cells, locConsistent (populate_grid cells)) ∧
    (∀ (w : Word) (g : Grid), rectangular g → locConsistent g →
      locConsistent (remove_word w g)) := by
  refine ⟨locConsistent_populate_grid, ?_⟩
  intro w g hr hc
  have hr1 : rectangular (removedPhase w g) := by
    unfold removedPhase
    exact rectangular_eraseCells _ _ (rectangular_eraseCells _ _ hr)
  have hc1 : locConsistent (removedPhase w g) := by
    intro y x sq h
    have h1 := eraseCells_some w.bonus_locs _ y x sq h
    have h2 := eraseCells_some w.locs g y x sq h1
    exact hc y x sq h2
  intro y x sq h
  unfold remove_word at h
  by_cases hx : x < gridW (removedPhase w g)
  · rw [← getCol_getD, compactGrid_getCol _ hr1 x hx] at h
    have hcons : colConsistent x 0 (getCol x (removedPhase w g)) := by
      intro n sq' h'
      rw [getCol_getD] at h'
      rw [hc1 n x sq' h']
      simp
    have := compactColumn_consistent x _ hcons y sq h
    rw [this]
    simp
  · have hnone : getCell (compactGrid (removedPhase w g)) y x = none := by
      apply getCell_oob_of_rect (rectangular_compactGrid _ hr1)
      rw [gridW_compactGrid _ hr1]
      omega
    rw [hnone] at h
    exact absurd h (by simp)

theorem claim_C5_witness :
    locConsistent gridCol4 ∧ rectangular gridCol4 ∧
    locConsistent (remove_word wordC1of4 gridCol4) :=
  ⟨claim_C5_positions_consistent.1 _, by decide,
   claim_C5_positions_consistent.2 wordC1of4 gridCol4 (by decide)
     (claim_C5_positions_consistent.1 _)⟩

/-! ### The word search: `identify_words` -/

theorem rescore_word (w : Word) (g : Grid) (sd : Char → Nat) :
    (rescore w g sd).word = w.word := rfl

theorem rescore_locs (w : Word) (g : Grid) (sd : Char → Nat) :
    (rescore w g sd).locs = w.locs := rfl

/-- How a word can be produced by one unfolding of the search: through
some admissible neighbour cell, either as the finished extension (tag
Word or Both) or out of the recursive call (tag Both or Fragment). -/
theorem identify_words_mem_succ {fuel : Nat} {grid : Grid} {start : Nat × Nat}
    {d : String → Option Tag} {cw : String} {locs : List (Nat × Nat)} {sd : Char → Nat}
    {wd : Word} (h : wd ∈ identify_words (fuel + 1) grid start d cw locs sd) :
    ∃ c : Nat × Nat, ∃ sq : GameSquare,
      getCell grid c.1 c.2 = some sq ∧ strLower sq.letter ≠ "" ∧ c ∉ locs ∧
      ((d (cw ++ strLower sq.letter) = some Tag.w ∧
          wd = rescore { word := cw ++ strLower sq.letter, locs := locs ++ [c] } grid sd) ∨
        (d (cw ++ strLower sq.letter) = some Tag.b ∧
          (wd = rescore { word := cw ++ strLower sq.letter, locs := locs ++ [c] } grid sd ∨
            ∃ wd', wd' ∈ identify_words fuel grid c d (cw ++ strLower sq.letter)
                (locs ++ [c]) sd ∧ wd = rescore wd' grid sd)) ∨
        (d (cw ++ strLower sq.letter) = some Tag.f ∧
          ∃ wd', wd' ∈ identify_words fuel grid c d (cw ++ strLower sq.letter)
              (locs ++ [c]) sd ∧ wd = rescore wd' grid sd)) := by
  simp only [identify_words] at h
  rcases List.mem_flatMap.mp h with ⟨i, _, h⟩
  by_cases hbi : i < 0 ∨ ((gridH grid : Int) ≤ i)
  · rw [if_pos hbi] at h
    simp at h
  · rw [if_neg hbi] at h
    rcases List.mem_flatMap.mp h with ⟨j, _, h⟩
    by_cases hbj : j < 0 ∨ ((gridW grid : Int) ≤ j)
    · rw [if_pos hbj] at h
      simp at h
    · rw [if_neg hbj] at h
      by_cases hmem : (i.toNat, j.toNat) ∈ locs
      · rw [if_pos hmem] at h
        simp at h
      · rw [if_neg hmem] at h
        cases hcell : getCell grid i.toNat j.toNat with
        | none =>
          rw [hcell] at h
          simp at h
        | some sq =>
          rw [hcell] at h
          dsimp only at h
          by_cases hlet : strLower sq.letter = ""
          · rw [if_pos hlet] at h
            simp at h
          · rw [if_neg hlet] at h
            refine ⟨(i.toNat, j.toNat), sq, hcell, hlet, hmem, ?_⟩
            cases hdict : d (cw ++ strLower sq.letter) with
            | none =>
              rw [hdict] at h
              simp at h
            | some t =>
              rw [hdict] at h
              cases t with
              | w =>
                left
                refine ⟨rfl, ?_⟩
                dsimp only at h
                simpa using h
              | b =>
                right
                left
                refine ⟨rfl, ?_⟩
                dsimp only at h
                rcases List.mem_append.mp h with h | h
                · right
                  rcases List.mem_map.mp h with ⟨wd', hwd', rfl⟩
                  exact ⟨wd', hwd', rfl⟩
                · left
                  simpa using h
              | f =>
                right
                right
                refine ⟨rfl, ?_⟩
                dsimp only at h
                rcases List.mem_map.mp h with ⟨wd', hwd', rfl⟩
                exact ⟨wd', hwd', rfl⟩

/-- Every yielded word's text is a key tagged Word or Both. -/
theorem identify_words_tag :
    ∀ (fuel : Nat) (grid : Grid) (start : Nat × Nat) (d : String → Option Tag)
      (cw : String) (locs : List (Nat × Nat)) (sd : Char → Nat) (wd : Word),
      wd ∈ identify_words fuel grid start d cw locs sd →
      d wd.word = some Tag.w ∨ d wd.word = some Tag.b := by
  intro fuel
  induction fuel with
  | zero => intro grid start d cw locs sd wd h; simp [identify_words] at h
  | succ fuel ih =>
    intro grid start d cw locs sd wd h
    rcases identify_words_mem_succ h with
      ⟨c, sq, _, _, _, ⟨hdict, rfl⟩ | ⟨hdict, rfl | ⟨wd', hwd', rfl⟩⟩ | ⟨hdict, wd', hwd', rfl⟩⟩
    · left
      rw [rescore_word]
      exact hdict
    · right
      rw [rescore_word]
      exact hdict
    · rw [rescore_word]
      exact ih grid c d _ _ sd wd' hwd'
    · rw [rescore_word]
      exact ih grid c d _ _ sd wd' hwd'

/-- Every yielded word strictly extends the current string, agrees with
it on its first characters, and (with one-letter tiles) every strictly
intermediate slice of its text is a key tagged Both or Fragment — the
search never continues past a pure Word tag. -/
theorem identify_words_chain :
    ∀ (fuel : Nat) (grid : Grid) (start : Nat × Nat) (d : String → Option Tag)
      (cw : String) (locs : List (Nat × Nat)) (sd : Char → Nat) (wd : Word),
      lettersShort grid = true →
      wd ∈ identify_words fuel grid start d cw locs sd →
      cw.length < wd.word.length ∧ strTake wd.word cw.length = cw ∧
      (∀ i, cw.length < i → i < wd.word.length →
        d (strTake wd.word i) = some Tag.b ∨ d (strTake wd.word i) = some Tag.f) := by
  intro fuel
  induction fuel with
  | zero => intro grid start d cw locs sd wd _ h; simp [identify_words] at h
  | succ fuel ih =>
    intro grid start d cw locs sd wd hl h
    rcases identify_words_mem_succ h with
      ⟨c, sq, hcell, hlet, _, hbranch⟩
    have hlen1 : (strLower sq.letter).length = 1 := by
      have h1 := lettersShort_getCell hl hcell
      have h0 : (strLower sq.letter).length ≠ 0 :=
        fun h => hlet (string_length_eq_zero.mp h)
      omega
    have hnwlen : (cw ++ strLower sq.letter).length = cw.length + 1 := by
      rw [String.length_append]
      omega
    have hfin : ∀ l2, (rescore { word := cw ++ strLower sq.letter, locs := l2 } grid sd).word
        = cw ++ strLower sq.letter := fun _ => rfl
    rcases hbranch with ⟨hdict, rfl⟩ | ⟨hdict, rfl | ⟨wd', hwd', rfl⟩⟩ | ⟨hdict, wd', hwd', rfl⟩
    · rw [hfin]
      refine ⟨by omega, strTake_append_left cw _, ?_⟩
      intro i h1 h2
      omega
    · rw [hfin]
      refine ⟨by omega, strTake_append_left cw _, ?_⟩
      intro i h1 h2
      omega
    · rw [rescore_word]
      obtain ⟨ih1, ih2, ih3⟩ := ih grid c d _ _ sd wd' hl hwd'
      refine ⟨by omega, ?_, ?_⟩
      · calc strTake wd'.word cw.length
            = strTake wd'.word (min cw.length (cw ++ strLower sq.letter).length) := by
              rw [Nat.min_eq_left (by omega)]
          _ = strTake (strTake wd'.word (cw ++ strLower sq.letter).length) cw.length :=
              (strTake_strTake _ _ _).symm
          _ = strTake (cw ++ strLower sq.letter) cw.length := by rw [ih2]
          _ = cw := strTake_append_left cw _
      · intro i h1 h2
        by_cases hi : i = (cw ++ strLower sq.letter).length
        · subst hi
          rw [ih2]
          exact Or.inl hdict
        · exact ih3 i (by omega) h2
    · rw [rescore_word]
      obtain ⟨ih1, ih2, ih3⟩ := ih grid c d _ _ sd wd' hl hwd'
      refine ⟨by omega, ?_, ?_⟩
      · calc strTake wd'.word cw.length
            = strTake wd'.word (min cw.length (cw ++ strLower sq.letter).length) := by
              rw [Nat.min_eq_left (by omega)]
          _ = strTake (strTake wd'.word (cw ++ strLower sq.letter).length) cw.length :=
              (strTake_strTake _ _ _).symm
          _ = strTake (cw ++ strLower sq.letter) cw.length := by rw [ih2]
          _ = cw := strTake_append_left cw _
      · intro i h1 h2
        by_cases hi : i = (cw ++ strLower sq.letter).length
        · subst hi
          rw [ih2]
          exact Or.inr hdict
        · exact ih3 i (by omega) h2

/-- Every yielded word's path extends the current path. -/
theorem identify_words_locs_extend :
    ∀ (fuel : Nat) (grid : Grid) (start : Nat × Nat) (d : String → Option Tag)
      (cw : String) (locs : List (Nat × Nat)) (sd : Char → Nat) (wd : Word),
      wd ∈ identify_words fuel grid start d cw locs sd →
      ∃ tail, wd.locs = locs ++ tail := by
  intro fuel
  induction fuel with
  | zero => intro grid start d cw locs sd wd h; simp [identify_words] at h
  | succ fuel ih =>
    intro grid start d cw locs sd wd h
    rcases identify_words_mem_succ h with
      ⟨c, sq, _, _, _, ⟨_, rfl⟩ | ⟨_, rfl | ⟨wd', hwd', rfl⟩⟩ | ⟨_, wd', hwd', rfl⟩⟩
    · exact ⟨[c], rfl⟩
    · exact ⟨[c], rfl⟩
    · rw [rescore_locs]
      obtain ⟨tail, htail⟩ := ih grid c d _ _ sd wd' hwd'
      exact ⟨[c] ++ tail, by rw [htail, List.append_assoc]⟩
    · rw [rescore_locs]
      obtain ⟨tail, htail⟩ := ih grid c d _ _ sd wd' hwd'
      exact ⟨[c] ++ tail, by rw [htail, List.append_assoc]⟩

/-- C6: Word Search never yields a candidate whose text is absent from
the dictionary or tagged purely Fragment — every yielded text is tagged
Word or Both — and (on boards with one-letter tiles) no strictly
intermediate slice of a yielded text is tagged Word: after a pure
Word-tagged extension the search does not recurse further along that
branch. -/
theorem claim_C6_only_words_yielded
    (fuel : Nat) (grid : Grid) (start : Nat × Nat) (d : String → Option Tag)
    (cw : String) (locs : List (Nat × Nat)) (sd : Char → Nat) (wd : Word)
    (h : wd ∈ identify_words fuel grid start d cw locs sd) :
    (d wd.word = some Tag.w ∨ d wd.word = some Tag.b) ∧
    (lettersShort grid = true →
      ∀ i, cw.length < i → i < wd.word.length →
        d (strTake wd.word i) = some Tag.b ∨ d (strTake wd.word i) = some Tag.f) :=
  ⟨identify_words_tag fuel grid start d cw locs sd wd h,
   fun hl => (identify_words_chain fuel grid start d cw locs sd wd hl h).2.2⟩

/-! ### The greedy solver: sorting, occupied counts, termination -/

theorem sortDesc_perm (ws : List Word) : (sortDesc ws).Perm ws :=
  List.mergeSort_perm ws _

theorem sortDesc_eq_nil_iff (ws : List Word) : sortDesc ws = [] ↔ ws = [] := by
  constructor
  · intro h
    have := sortDesc_perm ws
    rw [h] at this
    exact (this.symm.eq_nil)
  · intro h
    subst h
    simp [sortDesc]

theorem sortDesc_head_max {ws : List Word} {top : Word} {rest : List Word}
    (h : sortDesc ws = top :: rest) :
    top ∈ ws ∧ ∀ w' ∈ ws, w'.score ≤ top.score := by
  have htrans : ∀ (a b c : Word), Nat.ble b.score a.score = true →
      Nat.ble c.score b.score = true → Nat.ble c.score a.score = true := by
    intro a b c h1 h2
    simp only [Nat.ble_eq] at *
    omega
  have htotal : ∀ (a b : Word),
      (Nat.ble b.score a.score || Nat.ble a.score b.score) = true := by
    intro a b
    simp only [Bool.or_eq_true, Nat.ble_eq]
    omega
  have hmem : top ∈ ws := by
    have : top ∈ sortDesc ws := by
      rw [h]
      exact List.mem_cons_self _ _
    exact List.mem_mergeSort.mp this
  refine ⟨hmem, ?_⟩
  have hp := List.sorted_mergeSort htrans htotal ws
  rw [show ws.mergeSort (fun a b => Nat.ble b.score a.score) = sortDesc ws from rfl, h] at hp
  have hhead := (List.pairwise_cons.mp hp).1
  intro w' hw'
  have : w' ∈ sortDesc ws := List.mem_mergeSort.mpr hw'
  rw [h] at this
  rcases List.mem_cons.mp this with rfl | hrest
  · exact Nat.le_refl _
  · have := hhead w' hrest
    simpa [Nat.ble_eq] using this

theorem countP_isSome_eq_colView_length :
    ∀ (col : List (Option GameSquare)),
      col.countP Option.isSome = (colView col).length := by
  intro col
  induction col with
  | nil => rfl
  | cons c rest ih =>
    cases c with
    | none =>
      rw [List.countP_cons, colView_cons_none, ih]
      simp [Option.isSome]
    | some a =>
      rw [List.countP_cons, colView_cons_some, ih]
      simp [Option.isSome]

theorem occupiedCount_compactGrid (g : Grid) (hr : rectangular g) :
    occupiedCount (compactGrid g) = occupiedCount g := by
  unfold occupiedCount
  rw [gridW_compactGrid g hr]
  apply Finset.sum_congr rfl
  intro x hx
  rw [compactGrid_getCol g hr x (Finset.mem_range.mp hx)]
  rw [countP_isSome_eq_colView_length, countP_isSome_eq_colView_length,
    compactColumn_view]

theorem countP_isSome_le_of_pointwise :
    ∀ (l₁ l₂ : List (Option GameSquare)), l₁.length = l₂.length →
      (∀ n, (l₁.getD n none).isSome = true → (l₂.getD n none).isSome = true) →
      l₁.countP Option.isSome ≤ l₂.countP Option.isSome := by
  intro l₁
  induction l₁ with
  | nil => intro l₂ _ _; simp
  | cons c₁ t₁ ih =>
    intro l₂ hlen hp
    cases l₂ with
    | nil => simp at hlen
    | cons c₂ t₂ =>
      have htail := ih t₂ (by simpa using hlen) (fun n h => by
        have := hp (n + 1)
        rw [List.getD_cons_succ, List.getD_cons_succ] at this
        exact this h)
      rw [List.countP_cons, List.countP_cons]
      cases hc₁ : c₁ with
      | none => simp [Option.isSome]; omega
      | some a =>
        have h0 := hp 0
        rw [List.getD_cons_zero, List.getD_cons_zero, hc₁] at h0
        have : c₂.isSome = true := h0 (by rfl)
        rw [this]
        simp [Option.isSome]
        omega

theorem countP_isSome_lt_of_pointwise :
    ∀ (l₁ l₂ : List (Option GameSquare)), l₁.length = l₂.length →
      (∀ n, (l₁.getD n none).isSome = true → (l₂.getD n none).isSome = true) →
      (∃ n, l₁.getD n none = none ∧ (l₂.getD n none).isSome = true) →
      l₁.countP Option.isSome < l₂.countP Option.isSome := by
  intro l₁
  induction l₁ with
  | nil =>
    intro l₂ hlen _ hwit
    obtain ⟨n, _, hsome⟩ := hwit
    cases l₂ with
    | nil => simp at hsome
    | cons c₂ t₂ => simp at hlen
  | cons c₁ t₁ ih =>
    intro l₂ hlen hp hwit
    cases l₂ with
    | nil => simp at hlen
    | cons c₂ t₂ =>
      have htailp : ∀ n, (t₁.getD n none).isSome = true → (t₂.getD n none).isSome = true := by
        intro n h
        have := hp (n + 1)
        rw [List.getD_cons_succ, List.getD_cons_succ] at this
        exact this h
      rw [List.countP_cons, List.countP_cons]
      obtain ⟨n, hnone, hsome⟩ := hwit
      cases n with
      | zero =>
        rw [List.getD_cons_zero] at hnone hsome
        subst hnone
        rw [hsome]
        have := countP_isSome_le_of_pointwise t₁ t₂ (by simpa using hlen) htailp
        simp [Option.isSome]
        omega
      | succ n =>
        rw [List.getD_cons_succ] at hnone hsome
        have htlt := ih t₂ (by simpa using hlen) htailp ⟨n, hnone, hsome⟩
        have hhead : (if c₁.isSome = true then 1 else 0) ≤
            (if c₂.isSome = true then 1 else 0) := by
          cases hc₁ : c₁ with
          | none => simp [Option.isSome]
          | some a =>
            have h0 := hp 0
            rw [List.getD_cons_zero, List.getD_cons_zero, hc₁] at h0
            rw [h0 (by rfl)]
            simp
        omega

theorem setCellNone_preserves_none (g : Grid) (y x y' x' : Nat)
    (h : getCell g y x = none) : getCell (setCell g y' x' none) y x = none := by
  rcases getCell_setCell_none_cases g y' x' y x with he | he
  · rw [he, h]
  · exact he

theorem eraseCells_preserves_none :
    ∀ (locs : List (Nat × Nat)) (g : Grid) (y x : Nat),
      getCell g y x = none → getCell (eraseCells locs g) y x = none := by
  intro locs
  induction locs with
  | nil => intro g y x h; exact h
  | cons l ls ih =>
    intro g y x h
    exact ih _ y x (setCellNone_preserves_none g y x l.1 l.2 h)

theorem rowlen_setCell (g : Grid) (y x : Nat) (v : Option GameSquare) (y' : Nat) :
    ((setCell g y x v).getD y' []).length = (g.getD y' []).length := by
  unfold setCell
  by_cases hy : y' = y
  · subst hy
    by_cases hlen : y' < g.length
    · rw [getD_set_self g y' _ [] hlen, List.length_set]
    · rw [List.set_eq_of_length_le (by omega)]
  · rw [getD_set_ne _ _ _ (fun h => hy h.symm)]

theorem eraseCells_none_of_mem :
    ∀ (locs : List (Nat × Nat)) (g : Grid) (loc : Nat × Nat), loc ∈ locs →
      loc.1 < g.length → loc.2 < (g.getD loc.1 []).length →
      getCell (eraseCells locs g) loc.1 loc.2 = none := by
  intro locs
  induction locs with
  | nil => intro g loc h; simp at h
  | cons l ls ih =>
    intro g loc hmem hy hx
    rcases List.mem_cons.mp hmem with rfl | hmem
    · show getCell (eraseCells ls (setCell g loc.1 loc.2 none)) loc.1 loc.2 = none
      apply eraseCells_preserves_none
      exact getCell_setCell_self g loc.1 loc.2 none hy hx
    · show getCell (eraseCells ls (setCell g l.1 l.2 none)) loc.1 loc.2 = none
      apply ih _ loc hmem
      · unfold setCell
        rw [List.length_set]
        exact hy
      · rw [rowlen_setCell]
        exact hx

theorem eraseCells_pointwise (locs : List (Nat × Nat)) (g : Grid) (y x : Nat)
    (h : (getCell (eraseCells locs g) y x).isSome = true) :
    (getCell g y x).isSome = true := by
  cases hc : getCell (eraseCells locs g) y x with
  | none => rw [hc] at h; simp at h
  | some sq => rw [eraseCells_some locs g y x sq hc]; rfl

theorem rectangular_remove_word (w : Word) (g : Grid) (hr : rectangular g) :
    rectangular (remove_word w g) := by
  unfold remove_word removedPhase
  exact rectangular_compactGrid _
    (rectangular_eraseCells _ _ (rectangular_eraseCells _ _ hr))

theorem occupiedCount_remove_word_lt (w : Word) (g : Grid) (hr : rectangular g)
    (y x : Nat) (hy : y < gridH g) (hx : x < gridW g) (hmem : (y, x) ∈ w.locs)
    (hocc : (getCell g y x).isSome = true) :
    occupiedCount (remove_word w g) < occupiedCount g := by
  have hr1 : rectangular (eraseCells w.locs g) := rectangular_eraseCells _ _ hr
  have hr2 : rectangular (removedPhase w g) := rectangular_eraseCells _ _ hr1
  have hW2 : gridW (removedPhase w g) = gridW g := by
    unfold removedPhase
    rw [gridW_eraseCells _ _ hr1, gridW_eraseCells _ _ hr]
  have hH2 : (removedPhase w g).length = g.length := by
    have h1 : gridH (removedPhase w g) = gridH g := by
      unfold removedPhase
      rw [gridH_eraseCells, gridH_eraseCells]
    exact h1
  have hpt : ∀ y' x', (getCell (removedPhase w g) y' x').isSome = true →
      (getCell g y' x').isSome = true := by
    intro y' x' h
    unfold removedPhase at h
    exact eraseCells_pointwise w.locs g y' x' (eraseCells_pointwise w.bonus_locs _ y' x' h)
  have hnone : getCell (removedPhase w g) y x = none := by
    unfold removedPhase
    apply eraseCells_preserves_none
    apply eraseCells_none_of_mem w.locs g (y, x) hmem hy
    have hrow := hr _ (@getD_mem (List (Option GameSquare)) g y [] hy)
    show x < (g.getD y []).length
    omega
  rw [show occupiedCount (remove_word w g) = occupiedCount (removedPhase w g) from
    occupiedCount_compactGrid _ hr2]
  unfold occupiedCount
  rw [hW2]
  apply Finset.sum_lt_sum
  · intro x' _
    apply countP_isSome_le_of_pointwise
    · rw [length_getCol, length_getCol]
      exact hH2
    · intro n hsome
      rw [getCol_getD] at hsome ⊢
      exact hpt n x' hsome
  · refine ⟨x, Finset.mem_range.mpr hx, ?_⟩
    apply countP_isSome_lt_of_pointwise
    · rw [length_getCol, length_getCol]
      exact hH2
    · intro n hsome
      rw [getCol_getD] at hsome ⊢
      exact hpt n x hsome
    · refine ⟨y, ?_, ?_⟩
      · rw [getCol_getD]
        exact hnone
      · rw [getCol_getD]
        exact hocc

theorem solveLoop_empty (d : String → Option Tag) (sd : Char → Nat) (fuel : Nat)
    (g : Grid) (s : Nat) (u : List String) (h : collectWords g d sd = []) :
    solveLoop d sd (fuel + 1) g s u = (s, u) := by
  show (match sortDesc (collectWords g d sd) with
    | [] => (s, u)
    | top :: _ =>
        solveLoop d sd fuel (remove_word top g) (s + top.score) (u ++ [top.word])) = (s, u)
  rw [h, show sortDesc [] = [] from by simp [sortDesc]]

theorem solveLoop_commit (d : String → Option Tag) (sd : Char → Nat) (fuel : Nat)
    (g : Grid) (s : Nat) (u : List String) (top : Word) (rest : List Word)
    (h : sortDesc (collectWords g d sd) = top :: rest) :
    solveLoop d sd (fuel + 1) g s u =
      solveLoop d sd fuel (remove_word top g) (s + top.score) (u ++ [top.word]) := by
  show (match sortDesc (collectWords g d sd) with
    | [] => (s, u)
    | top :: _ =>
        solveLoop d sd fuel (remove_word top g) (s + top.score) (u ++ [top.word])) = _
  rw [h]

theorem collectWords_start {g : Grid} {d : String → Option Tag} {sd : Char → Nat}
    {wd : Word} (h : wd ∈ collectWords g d sd) :
    ∃ y x sq, y < gridH g ∧ x < gridW g ∧ getCell g y x = some sq ∧ (y, x) ∈ wd.locs := by
  unfold collectWords at h
  rcases List.mem_flatMap.mp h with ⟨y, hy, h⟩
  rcases List.mem_flatMap.mp h with ⟨x, hx, h⟩
  cases hcell : getCell g y x with
  | none =>
    rw [hcell] at h
    simp at h
  | some sq =>
    rw [hcell] at h
    dsimp only at h
    obtain ⟨tail, htail⟩ := identify_words_locs_extend _ g (y, x) d _ _ sd wd h
    refine ⟨y, x, sq, List.mem_range.mp hy, List.mem_range.mp hx, hcell, ?_⟩
    rw [htail]
    exact List.mem_append_left _ (List.mem_singleton_self _)

theorem occupiedCount_pos_of_occupied {g : Grid} {y x : Nat} {sq : GameSquare}
    (hy : y < gridH g) (hx : x < gridW g) (hc : getCell g y x = some sq) :
    0 < occupiedCount g := by
  have hcol : 0 < (getCol x g).countP Option.isSome := by
    rw [List.countP_pos_iff]
    refine ⟨(getCol x g).getD y none, getD_mem ?_, ?_⟩
    · rw [length_getCol]
      exact hy
    · rw [getCol_getD, hc]
      rfl
  unfold occupiedCount
  exact Nat.lt_of_lt_of_le hcol
    (@Finset.single_le_sum Nat Nat _ (fun x' => (getCol x' g).countP Option.isSome)
      (Finset.range (gridW g)) (fun i _ => Nat.zero_le _) x (Finset.mem_range.mpr hx))

theorem solveLoop_stable (d : String → Option Tag) (sd : Char → Nat) :
    ∀ (n : Nat) (g : Grid), occupiedCount g ≤ n → rectangular g →
      ∀ (s : Nat) (u : List String) (f f' : Nat),
        occupiedCount g < f → occupiedCount g < f' →
        solveLoop d sd f g s u = solveLoop d sd f' g s u := by
  intro n
  induction n with
  | zero =>
    intro g hle hr s u f f' hf hf'
    cases f with
    | zero => omega
    | succ f =>
      cases f' with
      | zero => omega
      | succ f' =>
        cases hsort : sortDesc (collectWords g d sd) with
        | nil =>
          have hws : collectWords g d sd = [] := (sortDesc_eq_nil_iff _).mp hsort
          rw [solveLoop_empty d sd f g s u hws, solveLoop_empty d sd f' g s u hws]
        | cons top rest =>
          exfalso
          have htop := (sortDesc_head_max hsort).1
          obtain ⟨y, x, sq, hy, hx, hc, _⟩ := collectWords_start htop
          have := occupiedCount_pos_of_occupied hy hx hc
          omega
  | succ n ih =>
    intro g hle hr s u f f' hf hf'
    cases f with
    | zero => omega
    | succ f =>
      cases f' with
      | zero => omega
      | succ f' =>
        cases hsort : sortDesc (collectWords g d sd) with
        | nil =>
          have hws : collectWords g d sd = [] := (sortDesc_eq_nil_iff _).mp hsort
          rw [solveLoop_empty d sd f g s u hws, solveLoop_empty d sd f' g s u hws]
        | cons top rest =>
          rw [solveLoop_commit d sd f g s u top rest hsort,
            solveLoop_commit d sd f' g s u top rest hsort]
          have htop := (sortDesc_head_max hsort).1
          obtain ⟨y, x, sq, hy, hx, hc, hmem⟩ := collectWords_start htop
          have hdec := occupiedCount_remove_word_lt top g hr y x hy hx hmem (by rw [hc]; rfl)
          exact ih (remove_word top g) (by omega) (rectangular_remove_word top g hr)
            _ _ f f' (by omega) (by omega)

/-- C9: each round of the greedy loop collects the scored candidates of
every occupied cell in row-major order (`collectWords`); if the round
yields none the loop stops with the accumulated total and word list,
otherwise it commits a candidate of maximal score — the head of the
stable descending sort — adding its score, appending its word, removing
its path and bonus cells and compacting, and recurses; and on a
rectangular board any fuel beyond the occupied-cell count computes the
same result, because every committed round strictly decreases the
number of occupied cells, so the loop always reaches the zero-candidate
round. -/
theorem claim_C9_greedy_rounds (g : Grid) (d : String → Option Tag) (sd : Char → Nat)
    (hr : rectangular g) :
    (∀ fuel s u, collectWords g d sd = [] → solveLoop d sd (fuel + 1) g s u = (s, u)) ∧
    (∀ top rest, sortDesc (collectWords g d sd) = top :: rest →
      top ∈ collectWords g d sd ∧
      (∀ w' ∈ collectWords g d sd, w'.score ≤ top.score) ∧
      (∀ fuel s u, solveLoop d sd (fuel + 1) g s u =
        solveLoop d sd fuel (remove_word top g) (s + top.score) (u ++ [top.word]))) ∧
    (∀ f s u, occupiedCount g < f →
      solveLoop d sd f g s u = solveLoop d sd (occupiedCount g + 1) g s u) ∧
    solve g d sd = solveLoop d sd (occupiedCount g + 1) g 0 [] := by
  refine ⟨?_, ?_, ?_, rfl⟩
  · intro fuel s u h
    exact solveLoop_empty d sd fuel g s u h
  · intro top rest hsort
    obtain ⟨hmem, hmax⟩ := sortDesc_head_max hsort
    exact ⟨hmem, hmax, fun fuel s u => solveLoop_commit d sd fuel g s u top rest hsort⟩
  · intro f s u hf
    exact solveLoop_stable d sd (occupiedCount g) g (Nat.le_refl _) hr s u f
      (occupiedCount g + 1) hf (by omega)

theorem claim_C9_witness :
    rectangular gridABE ∧
    sortDesc (collectWords gridABE dictAbeFrag (fun _ => 1)) = [wordABEFound] ∧
    (wordABEFound ∈ collectWords gridABE dictAbeFrag (fun _ => 1) ∧
      ∀ w' ∈ collectWords gridABE dictAbeFrag (fun _ => 1),
        w'.score ≤ wordABEFound.score) ∧
    (solveLoop dictAbeFrag (fun _ => 1) 4 gridABE 0 [] =
      solveLoop dictAbeFrag (fun _ => 1) 3 (remove_word wordABEFound gridABE) 9 ["abe"]) ∧
    solve gridABE dictAbeFrag (fun _ => 1) = (9, ["abe"]) := by
  have hthm := claim_C9_greedy_rounds gridABE dictAbeFrag (fun _ => 1) (by decide)
  have hcoll : collectWords gridABE dictAbeFrag (fun _ => 1) = [wordABEFound] := by
    decide
  have hsort : sortDesc (collectWords gridABE dictAbeFrag (fun _ => 1)) = [wordABEFound] := by
    rw [hcoll]
    exact List.mergeSort_singleton _
  obtain ⟨hmem, hmax, hstep⟩ := hthm.2.1 wordABEFound [] hsort
  have h1 : solveLoop dictAbeFrag (fun _ => 1) 4 gridABE 0 [] =
      solveLoop dictAbeFrag (fun _ => 1) 3 (remove_word wordABEFound gridABE) 9 ["abe"] :=
    hstep 3 0 []
  refine ⟨by decide, hsort, ⟨hmem, hmax⟩, h1, ?_⟩
  have hocc : occupiedCount gridABE = 3 := by decide
  have h0 : solve gridABE dictAbeFrag (fun _ => 1) =
      solveLoop dictAbeFrag (fun _ => 1) 4 gridABE 0 [] := by
    show solveLoop dictAbeFrag (fun _ => 1) (occupiedCount gridABE + 1) gridABE 0 [] = _
    rw [hocc]
  have h2 : collectWords (remove_word wordABEFound gridABE) dictAbeFrag (fun _ => 1) = [] := by
    decide
  have h3 : solveLoop dictAbeFrag (fun _ => 1) 3 (remove_word wordABEFound gridABE) 9 ["abe"] =
      (9, ["abe"]) :=
    solveLoop_empty dictAbeFrag (fun _ => 1) 2 (remove_word wordABEFound gridABE) 9 ["abe"] h2
  exact h0.trans (h1.trans h3)

theorem claim_C6_witness :
    (wordABEFound ∈ identify_words 5 gridABE (0, 0) dictAbeFrag "a" [(0, 0)] (fun _ => 1)) ∧
    (dictAbeFrag wordABEFound.word = some Tag.w ∨
      dictAbeFrag wordABEFound.word = some Tag.b) ∧
    (dictAbeFrag (strTake wordABEFound.word 2) = some Tag.b ∨
      dictAbeFrag (strTake wordABEFound.word 2) = some Tag.f) :=
  ⟨by decide,
   (claim_C6_only_words_yielded 5 gridABE (0, 0) dictAbeFrag "a" [(0, 0)] (fun _ => 1)
      wordABEFound (by decide)).1,
   (claim_C6_only_words_yielded 5 gridABE (0, 0) dictAbeFrag "a" [(0, 0)] (fun _ => 1)
      wordABEFound (by decide)).2 (by decide) 2 (by decide) (by decide)⟩

end SpellTower
